import Mathlib

/-!
# Verification of the stxxl `sequence` container

Shallow embedding of `include/stxxl/bits/containers/sequence.h` (class
`stxxl::sequence`): an external-memory double-ended sequence keeping two
resident blocks (front and back) of capacity `B` and a deque of block
identifiers (BIDs) for the persisted middle blocks.

Modelling decisions, all read off the source:

* a block is a `List V` of length `B` (`block_type`, `block_type::size = B`);
* `m_front_element` is the index `fe` into the front block;
  `m_back_element` is represented by `bu` = index of the back element plus
  one ("back used"); the empty-sequence sentinel `m_back_element =
  begin() - 1` together with `m_front_element = begin()` becomes
  `fe = 0, bu = 0`;
* the C++ pointer equality `m_front_block == m_back_block` becomes the
  flag `shared`; a store through one pointer while shared updates both
  list fields to keep them equal;
* each BID in `m_bids` is represented directly by the block contents
  written to it (the write pool / prefetch pool of foxxll deliver exactly
  the written contents back on read, which is their contract);
* freshly stolen pool blocks have unspecified contents; the model fills
  them with the value being stored, which is never observable because the
  unwritten cells are outside every access path;
* I/O side effects (BID allocation, block write, prefetch hint, block
  read, BID release, returning a block to the pool) are recorded as an
  event list returned next to the new state.
-/

namespace StxxlSeq

/-- I/O and pool events emitted by a sequence operation, in program order:
`alloc` = `block_manager::new_block`, `write` = `pool->write`,
`hint` = `pool->hint`, `readB` = `pool->read`,
`delB` = `block_manager::delete_block`, `addPool` = `pool->add`. -/
inductive Ev : Type where
  | alloc
  | write
  | hint
  | readB
  | delB
  | addPool
deriving DecidableEq, Repr

/-- State of `stxxl::sequence` (fields named after the source; `fe` is the
index of `m_front_element` in the front block and `bu` is the index of
`m_back_element` plus one). -/
structure Seq (V : Type) where
  m_size : Nat
  shared : Bool
  front_block : List V
  back_block : List V
  fe : Nat
  bu : Nat
  bids : List (List V)
  m_blocks2prefetch : Nat
  m_alloc_count : Nat
deriving DecidableEq, Repr

variable {V : Type}

/-- Store through `m_front_element`: while the two resident blocks are the
same C++ object, a store through either pointer is visible through both. -/
def wrFront (s : Seq V) (i : Nat) (v : V) : Seq V :=
  { s with front_block := s.front_block.set i v
         , back_block := if s.shared then s.back_block.set i v else s.back_block }

/-- Store through `m_back_element` (see `wrFront`). -/
def wrBack (s : Seq V) (i : Nat) (v : V) : Seq V :=
  { s with back_block := s.back_block.set i v
         , front_block := if s.shared then s.front_block.set i v else s.front_block }

/-- The state right after `init()`: one block stolen from the pool serves as
both front and back, `m_back_element = begin() - 1`,
`m_front_element = begin()`.  `P` is `m_blocks2prefetch`, `d` stands for the
unspecified contents of the stolen block. -/
def initSeq (B P : Nat) (d : V) : Seq V :=
  ⟨0, true, List.replicate B d, List.replicate B d, 0, 0, [], P, 0⟩

/-- `sequence::push_front(val)`, translated branch by branch. -/
def push_front (B : Nat) (v : V) (s : Seq V) : Seq V × List Ev :=
  if s.fe = 0 then
    if s.m_size = 0 then
      -- Case 0: store into the last cell; front and back coincide there
      (wrFront { s with fe := B - 1, bu := B, m_size := s.m_size + 1 } (B - 1) v, [])
    else if s.shared then
      -- Case 1: the shared block must stay resident; steal a fresh front
      -- block and store into its last cell
      ({ s with shared := false
              , front_block := List.replicate B v
              , fe := B - 1
              , m_size := s.m_size + 1 }, [])
    else if s.m_size < 2 * B then
      -- Case 1.5: two resident blocks with a gap at the end of the back
      -- block; compact within memory, no I/O
      let gap := B - s.bu
      let back1 := s.front_block.drop (B - gap) ++ s.back_block.take s.bu
      let front1 := s.front_block.take gap ++ s.front_block.take (B - gap)
      ({ s with front_block := front1.set (gap - 1) v
              , back_block := back1
              , fe := gap - 1
              , bu := s.bu + gap
              , m_size := s.m_size + 1 }, [])
    else
      -- Case 2: allocate a BID, enqueue a write of the front block,
      -- prepend the BID, maybe hint it, steal a fresh front block
      let bids1 := s.front_block :: s.bids
      let ev := if bids1.length ≤ s.m_blocks2prefetch
                then [Ev.alloc, Ev.write, Ev.hint] else [Ev.alloc, Ev.write]
      ({ s with bids := bids1
              , m_alloc_count := s.m_alloc_count + 1
              , front_block := List.replicate B v
              , fe := B - 1
              , m_size := s.m_size + 1 }, ev)
  else
    -- not at the beginning of a block
    (wrFront { s with fe := s.fe - 1, m_size := s.m_size + 1 } (s.fe - 1) v, [])

/-- `sequence::push_back(val)`, translated branch by branch. -/
def push_back (B : Nat) (v : V) (s : Seq V) : Seq V × List Ev :=
  if s.bu = B then
    if s.shared then
      -- Case 1: the shared block must stay resident; steal a fresh back block
      ({ s with shared := false
              , back_block := List.replicate B v
              , bu := 1
              , m_size := s.m_size + 1 }, [])
    else if s.m_size < 2 * B then
      -- Case 1.5: gap at the beginning of the front block; compact in memory
      let gap := s.fe
      let front1 := s.front_block.drop gap ++ s.back_block.take gap
      let back1 := s.back_block.drop gap ++ s.back_block.drop (B - gap)
      ({ s with front_block := front1
              , back_block := back1.set (B - gap) v
              , fe := 0
              , bu := B - gap + 1
              , m_size := s.m_size + 1 }, [])
    else
      -- Case 2: allocate a BID, enqueue a write of the back block,
      -- append the BID, maybe hint it, steal a fresh back block
      let bids1 := s.bids ++ [s.back_block]
      let ev := if bids1.length ≤ s.m_blocks2prefetch
                then [Ev.alloc, Ev.write, Ev.hint] else [Ev.alloc, Ev.write]
      ({ s with bids := bids1
              , m_alloc_count := s.m_alloc_count + 1
              , back_block := List.replicate B v
              , bu := 1
              , m_size := s.m_size + 1 }, ev)
  else
    -- not at the end of a block
    (wrBack { s with bu := s.bu + 1, m_size := s.m_size + 1 } s.bu v, [])

/-- `sequence::pop_front()` (precondition in the source: `!empty()`). -/
def pop_front (B : Nat) (s : Seq V) : Seq V × List Ev :=
  if s.fe = B - 1 then
    if s.shared then
      -- Case 1: single block, single element; reset to the empty sentinel
      ({ s with fe := 0, bu := 0, m_size := 0 }, [])
    else if s.m_size - 1 ≤ B then
      -- Case 2: the back block is the next front block
      ({ s with shared := true
              , front_block := s.back_block
              , fe := 0
              , m_size := s.m_size - 1 }, [Ev.addPool])
    else
      -- Case 3: read the front BID, hint the following BIDs, release it
      ({ s with front_block := s.bids.headD s.front_block
              , bids := s.bids.tail
              , fe := 0
              , m_size := s.m_size - 1 },
       Ev.readB :: List.replicate (min s.m_blocks2prefetch (s.bids.length - 1)) Ev.hint
         ++ [Ev.delB])
  else
    ({ s with fe := s.fe + 1, m_size := s.m_size - 1 }, [])

/-- `sequence::pop_back()` (precondition in the source: `!empty()`).
Note the hint loop of the source starts at `i = 1` where `pop_front`'s
starts at `i = 0`, so one hint fewer is issued. -/
def pop_back (B : Nat) (s : Seq V) : Seq V × List Ev :=
  if s.bu = 1 then
    if s.shared then
      -- Case 1: single block, single element; reset to the empty sentinel
      ({ s with fe := 0, bu := 0, m_size := 0 }, [])
    else if s.m_size - 1 ≤ B then
      -- Case 2: the front block is the next back block
      ({ s with shared := true
              , back_block := s.front_block
              , bu := B
              , m_size := s.m_size - 1 }, [Ev.addPool])
    else
      -- Case 3: read the back BID, hint the preceding BIDs, release it
      ({ s with back_block := s.bids.getLastD s.back_block
              , bids := s.bids.dropLast
              , bu := B
              , m_size := s.m_size - 1 },
       Ev.readB :: List.replicate (min s.m_blocks2prefetch (s.bids.length - 1) - 1) Ev.hint
         ++ [Ev.delB])
  else
    ({ s with bu := s.bu - 1, m_size := s.m_size - 1 }, [])

/-- `sequence::size()`. -/
def size (s : Seq V) : Nat := s.m_size

/-- `sequence::empty()`. -/
def empty (s : Seq V) : Bool := s.m_size = 0

/-- `sequence::front()`: `*m_front_element`, defined only on a non-empty
sequence. -/
def front? (s : Seq V) : Option V :=
  if s.m_size = 0 then none else s.front_block[s.fe]?

/-- `sequence::back()`: `*m_back_element`, defined only on a non-empty
sequence. -/
def back? (s : Seq V) : Option V :=
  if s.m_size = 0 then none else s.back_block[s.bu - 1]?

/-- Abstraction function: the logical list of values held by the sequence,
front to back. -/
def absSeq (s : Seq V) : List V :=
  if s.shared then (s.front_block.take s.bu).drop s.fe
  else s.front_block.drop s.fe ++ s.bids.flatten ++ s.back_block.take s.bu

/-- One operation of an interleaved push/pop program. -/
inductive Op (V : Type) where
  | pushF (v : V)
  | pushB (v : V)
  | popF
  | popB
deriving DecidableEq, Repr

/-- Execute one operation; pops are performed only on a non-empty sequence
(exactly as in `test_sequence.cpp`). -/
def step (B : Nat) (s : Seq V) (op : Op V) : Seq V :=
  match op with
  | .pushF v => (push_front B v s).1
  | .pushB v => (push_back B v s).1
  | .popF => if s.m_size = 0 then s else (pop_front B s).1
  | .popB => if s.m_size = 0 then s else (pop_back B s).1

/-- Run a program from the freshly constructed sequence. -/
def runProg (B P : Nat) (d : V) (prog : List (Op V)) : Seq V :=
  prog.foldl (step B) (initSeq B P d)

/-- One operation of the in-memory reference deque (front of the deque is
the head of the list). -/
def refStep (d : List V) (op : Op V) : List V :=
  match op with
  | .pushF v => v :: d
  | .pushB v => d ++ [v]
  | .popF => d.tail
  | .popB => d.dropLast

/-- Run a program on the in-memory reference deque. -/
def runRef (prog : List (Op V)) : List V :=
  prog.foldl refStep []

/-- Push every element of `xs`, in order, with `push_back`. -/
def pushAllBack (B : Nat) (xs : List V) (s : Seq V) : Seq V :=
  xs.foldl (fun t v => (push_back B v t).1) s

/-- Push every element of `xs`, in order, with `push_front`. -/
def pushAllFront (B : Nat) (xs : List V) (s : Seq V) : Seq V :=
  xs.foldl (fun t v => (push_front B v t).1) s

/-- Repeatedly read `front()` and `pop_front()` until `empty()`, collecting
the values (`n` is fuel; `d` a dummy for the unreachable out-of-range read). -/
def drainFront (B : Nat) (d : V) : Nat → Seq V → List V
  | 0, _ => []
  | n + 1, s =>
    if s.m_size = 0 then []
    else s.front_block.getD s.fe d :: drainFront B d n (pop_front B s).1

/-- Repeatedly read `back()` and `pop_back()` until `empty()`. -/
def drainBack (B : Nat) (d : V) : Nat → Seq V → List V
  | 0, _ => []
  | n + 1, s =>
    if s.m_size = 0 then []
    else s.back_block.getD (s.bu - 1) d :: drainBack B d n (pop_back B s).1

/-- State of `sequence::stream`: elements left, the block the cursor is in,
the cursor index, and the BIDs not yet consumed (`m_next_bid`). -/
structure SeqStream (V : Type) where
  m_size : Nat
  cur_block : List V
  cur_idx : Nat
  next_bids : List (List V)
deriving DecidableEq, Repr

/-- `stream::stream(sequence)`: capture the front position and the BID list. -/
def streamInit (s : Seq V) : SeqStream V :=
  ⟨s.m_size, s.front_block, s.fe, s.bids⟩

/-- `stream::operator++`, translated branch by branch. -/
def streamAdv (B : Nat) (s : Seq V) (st : SeqStream V) : SeqStream V :=
  if st.cur_idx = B - 1 then
    if st.m_size - 1 = 0 then { st with m_size := 0 }
    else if st.m_size - 1 ≤ B then ⟨st.m_size - 1, s.back_block, 0, st.next_bids⟩
    else ⟨st.m_size - 1, st.next_bids.headD st.cur_block, 0, st.next_bids.tail⟩
  else ⟨st.m_size - 1, st.cur_block, st.cur_idx + 1, st.next_bids⟩

/-- Drive a forward stream to exhaustion, collecting `operator*` before each
`operator++` (`n` is fuel). -/
def streamOut (B : Nat) (d : V) (s : Seq V) : Nat → SeqStream V → List V
  | 0, _ => []
  | n + 1, st =>
    if st.m_size = 0 then []
    else st.cur_block.getD st.cur_idx d :: streamOut B d s n (streamAdv B s st)

/-- `stream::stream(sequence, offset)`: the three positioning cases of the
source (`front_diff = fe`, `back_diff + 1 = bu`); the pool read and the
prefetch hints of the third case do not affect the emitted values and are
not recorded here. -/
def streamInitOff (B : Nat) (s : Seq V) (offset : Nat) : SeqStream V :=
  if offset + s.fe < B then
    ⟨s.m_size - offset, s.front_block, s.fe + offset, s.bids⟩
  else if s.m_size - offset ≤ s.bu then
    ⟨s.m_size - offset, s.back_block, (offset - (B - s.fe)) % B, []⟩
  else
    let mid_offset := offset - (B - s.fe)
    let block_shift := mid_offset / B
    ⟨s.m_size - offset, (s.bids.drop block_shift).headD s.front_block,
      mid_offset % B, s.bids.drop (block_shift + 1)⟩

/-- State of `sequence::reverse_stream` (the BID iterator runs backwards, so
`next_bids` holds the reversed BID list). -/
structure RevStream (V : Type) where
  m_size : Nat
  cur_block : List V
  cur_idx : Nat
  next_bids : List (List V)
deriving DecidableEq, Repr

/-- `reverse_stream::reverse_stream(sequence)`. -/
def revInit (s : Seq V) : RevStream V :=
  ⟨s.m_size, s.back_block, s.bu - 1, s.bids.reverse⟩

/-- `reverse_stream::operator++`, translated branch by branch. -/
def revAdv (B : Nat) (s : Seq V) (st : RevStream V) : RevStream V :=
  if st.cur_idx = 0 then
    if st.m_size - 1 = 0 then { st with m_size := 0 }
    else if st.m_size - 1 ≤ B then ⟨st.m_size - 1, s.front_block, B - 1, st.next_bids⟩
    else ⟨st.m_size - 1, st.next_bids.headD st.cur_block, B - 1, st.next_bids.tail⟩
  else ⟨st.m_size - 1, st.cur_block, st.cur_idx - 1, st.next_bids⟩

/-- Drive a reverse stream to exhaustion, collecting values. -/
def revOut (B : Nat) (d : V) (s : Seq V) : Nat → RevStream V → List V
  | 0, _ => []
  | n + 1, st =>
    if st.m_size = 0 then []
    else st.cur_block.getD st.cur_idx d :: revOut B d s n (revAdv B s st)

/-- Elements a forward stream (in state `st` over sequence `s`) has yet to
emit: the rest of the current block, the unconsumed BIDs, then the back
block, cut to `m_size`. -/
def StRem (s : Seq V) (st : SeqStream V) : List V :=
  (st.cur_block.drop st.cur_idx ++ st.next_bids.flatten ++ s.back_block).take st.m_size

/-- Invariant of a live forward stream state: cursor in range, blocks of
capacity `B`, and one of three phases — exhausted, consuming the back block
directly, or in the front/middle region with the remaining count tied to
the structure. -/
def StInv (B : Nat) (s : Seq V) (st : SeqStream V) : Prop :=
  st.cur_block.length = B ∧ (∀ b ∈ st.next_bids, b.length = B) ∧ st.cur_idx < B ∧
    (st.m_size = 0
      ∨ (st.next_bids = [] ∧ st.cur_block = s.back_block
          ∧ st.m_size + st.cur_idx = s.bu ∧ s.bu ≤ B)
      ∨ (st.m_size = (B - st.cur_idx) + B * st.next_bids.length + s.bu
          ∧ 1 ≤ s.bu ∧ s.bu ≤ B))

/-- Elements a reverse stream has yet to emit: the current block up to the
cursor reversed, the unconsumed BIDs (already in reverse order) each
reversed, then the front block reversed, cut to `m_size`. -/
def RevRem (s : Seq V) (st : RevStream V) : List V :=
  ((st.cur_block.take (st.cur_idx + 1)).reverse
    ++ (st.next_bids.map List.reverse).flatten ++ s.front_block.reverse).take st.m_size

/-- Invariant of a live reverse stream state. -/
def RevInv (B : Nat) (s : Seq V) (st : RevStream V) : Prop :=
  st.cur_block.length = B ∧ (∀ b ∈ st.next_bids, b.length = B) ∧ st.cur_idx < B ∧
    (st.m_size = 0
      ∨ (st.next_bids = [] ∧ st.cur_block = s.front_block
          ∧ st.m_size + s.fe = st.cur_idx + 1 ∧ s.fe ≤ st.cur_idx + 1)
      ∨ (st.m_size = (st.cur_idx + 1) + B * st.next_bids.length + (B - s.fe)
          ∧ s.fe < B))

/-- The two block pools owned by a sequence.  The constructor argument order
of `foxxll::read_write_pool` is (prefetch size, write size): the source's
`sequence(w_pool_size, p_pool_size)` constructor passes
`pool_type(p_pool_size, w_pool_size)`. -/
structure read_write_pool where
  size_prefetch : Nat
  size_write : Nat
deriving DecidableEq, Repr

/-- `sequence::init()` on the pool configuration: a write pool with fewer
than 2 blocks is resized to 3 (with a warning); the prefetch pool is left
alone whatever its size. -/
def seq_init_pool (p : read_write_pool) : read_write_pool :=
  if p.size_write < 2 then { p with size_write := 3 } else p

/-- Pool configuration produced by `sequence(const int D)`:
`m_pool = new pool_type(disks, disks + 2)`, then `init()`. -/
def sequence_ctor_D (D : Nat) : read_write_pool :=
  seq_init_pool ⟨D, D + 2⟩

/-- Pool configuration produced by
`sequence(w_pool_size, p_pool_size, blocks2prefetch)`:
`m_pool = new pool_type(p_pool_size, w_pool_size)`, then `init()`. -/
def sequence_ctor_sizes (w_pool_size p_pool_size : Nat) : read_write_pool :=
  seq_init_pool ⟨p_pool_size, w_pool_size⟩

/-- A mixed push/pop program over `Int`, used to instantiate the general
theorems at a concrete input. -/
def progW : List (Op Int) :=
  [.pushB 1, .pushB 2, .pushB 3, .pushB 4, .pushB 5, .pushF 6, .popB, .pushB 7,
   .popF, .popF, .pushB 8, .pushB 9, .pushB 10, .popB, .pushF 11, .popF, .popF]

/-- Eight consecutive `push_back`s of `0..7` (exactly `2B` for `B = 4`). -/
def progEightB : List (Op Int) :=
  (List.range 8).map (fun i => Op.pushB (i : Int))

/-- Nine consecutive `push_back`s of `1..9`. -/
def progNineB : List (Op Int) :=
  (List.range 9).map (fun i => Op.pushB (i + 1 : Int))

/-- Nine consecutive `push_front`s of `1..9`. -/
def progNineF : List (Op Int) :=
  (List.range 9).map (fun i => Op.pushF (i + 1 : Int))

/-!  ## Helper list lemmas -/

theorem take_set {α : Type _} : ∀ (l : List α) (i n : Nat) (v : α),
    (l.set i v).take n = (l.take n).set i v := by
  intro l
  induction l with
  | nil => intro i n v; simp
  | cons a t ih =>
    intro i n v
    cases i with
    | zero => cases n <;> simp
    | succ j =>
      cases n with
      | zero => simp
      | succ m => simp [ih]

theorem drop_set_self {α : Type _} (l : List α) (i : Nat) (v : α) (h : i < l.length) :
    (l.set i v).drop i = v :: l.drop (i + 1) := by
  rw [List.set_eq_take_append_cons_drop, if_pos h, List.drop_append_eq_append_drop]
  have hlen : (l.take i).length = i := by
    simp [List.length_take, Nat.min_eq_left (Nat.le_of_lt h)]
  rw [List.drop_of_length_le (le_of_eq hlen), hlen]
  simp

theorem set_take_last {α : Type _} (l : List α) (n : Nat) (v : α) (h : n < l.length) :
    (l.set n v).take (n + 1) = l.take n ++ [v] := by
  rw [List.set_eq_take_append_cons_drop, if_pos h, List.take_append_eq_append_take]
  have hlen : (l.take n).length = n := by
    simp [List.length_take, Nat.min_eq_left (Nat.le_of_lt h)]
  rw [List.take_of_length_le (by omega), hlen]
  have h1 : n + 1 - n = 1 := by omega
  rw [h1]
  simp

theorem set_zero_eq_cons {α : Type _} (l : List α) (v : α) (h : l ≠ []) :
    l.set 0 v = v :: l.tail := by
  cases l with
  | nil => exact absurd rfl h
  | cons a t => rfl

theorem flatten_length_uniform {α : Type _} (B : Nat) :
    ∀ (L : List (List α)), (∀ b ∈ L, b.length = B) → L.flatten.length = B * L.length := by
  intro L
  induction L with
  | nil => simp
  | cons a t ih =>
    intro h
    simp only [List.flatten_cons, List.length_append, List.length_cons]
    rw [ih (fun b hb => h b (List.mem_cons_of_mem a hb)), h a (List.mem_cons_self a t)]
    ring

/-!  ## The representation invariant -/

/-- Representation invariant of a sequence state, read off the source:
blocks have capacity `B`; while the resident blocks are shared the BID
deque is empty and the elements are the cells `fe … bu-1` of the single
block (empty means `fe = bu`, the relative one-before-start sentinel);
while they are
distinct, both resident blocks hold at least one live element and `m_size`
accounts for the front suffix, the full middle blocks and the back
prefix. -/
structure SeqInv (B : Nat) (s : Seq V) : Prop where
  flen : s.front_block.length = B
  blen : s.back_block.length = B
  bidlen : ∀ b ∈ s.bids, b.length = B
  hsh : s.shared = true →
    s.front_block = s.back_block ∧ s.bids = [] ∧ s.fe ≤ s.bu ∧ s.bu ≤ B ∧
      s.fe < B ∧ s.m_size = s.bu - s.fe
  hsp : s.shared = false →
    s.fe < B ∧ 1 ≤ s.bu ∧ s.bu ≤ B ∧
      s.m_size = (B - s.fe) + B * s.bids.length + s.bu

theorem initSeq_inv {B P : Nat} (d : V) (hB : 1 ≤ B) : SeqInv B (initSeq B P d) := by
  refine ⟨by simp [initSeq], by simp [initSeq], by simp [initSeq], ?_, ?_⟩
  · intro _
    exact ⟨rfl, rfl, le_refl 0, Nat.zero_le B, hB, rfl⟩
  · intro hc
    simp [initSeq] at hc

theorem absSeq_initSeq {B P : Nat} (d : V) : absSeq (initSeq B P d) = [] := by
  simp [absSeq, initSeq]

theorem push_back_step {B : Nat} (hB : 1 ≤ B) {s : Seq V} (h : SeqInv B s) (v : V) :
    SeqInv B (push_back B v s).1 ∧ absSeq (push_back B v s).1 = absSeq s ++ [v] := by
  obtain ⟨flen, blen, bidlen, hsh, hsp⟩ := h
  by_cases hbu : s.bu = B
  · by_cases hshb : s.shared = true
    · -- Case 1: shared block stays resident, fresh back block
      obtain ⟨hfb, hbids, hfe, hbuB, hfeB, hsize⟩ := hsh hshb
      have hk : s.bids.length = 0 := by rw [hbids]; rfl
      unfold push_back
      rw [if_pos hbu, if_pos hshb]
      dsimp only
      constructor
      · constructor
        · exact flen
        · simp
        · exact bidlen
        · simp
        · intro _
          refine ⟨hfeB, le_refl 1, hB, ?_⟩
          dsimp only
          rw [hk]
          omega
      · unfold absSeq
        dsimp only
        rw [if_neg (by simp), if_pos hshb]
        rw [List.take_replicate, Nat.min_eq_left hB, hbids, hbu,
          List.take_of_length_le (le_of_eq flen)]
        simp
    · have hshf : s.shared = false := by simpa using hshb
      obtain ⟨hfeB, hbu1, hbuB, hsize⟩ := hsp hshf
      by_cases hlt : s.m_size < 2 * B
      · -- Case 1.5: in-memory compaction
        have hk : s.bids.length = 0 := by
          by_contra hne
          have h1 : 1 ≤ s.bids.length := Nat.pos_of_ne_zero hne
          have h2 : B ≤ B * s.bids.length := Nat.le_mul_of_pos_right B h1
          omega
        have hbids : s.bids = [] := List.eq_nil_of_length_eq_zero hk
        rw [hk, Nat.mul_zero] at hsize
        have hgap : 1 ≤ s.fe := by omega
        have hAlen : (s.back_block.drop s.fe).length = B - s.fe := by simp [blen]
        have hClen : (s.back_block.drop (B - s.fe)).length = s.fe := by
          simp [blen]; omega
        have hCne : s.back_block.drop (B - s.fe) ≠ [] := by
          intro hc; rw [hc] at hClen; simp at hClen; omega
        have hset : (s.back_block.drop s.fe ++ s.back_block.drop (B - s.fe)).set (B - s.fe) v
            = s.back_block.drop s.fe ++ (v :: (s.back_block.drop (B - s.fe)).tail) := by
          rw [List.set_append, hAlen, if_neg (lt_irrefl _), Nat.sub_self,
            set_zero_eq_cons _ _ hCne]
        unfold push_back
        rw [if_pos hbu, if_neg hshb, if_pos hlt]
        dsimp only
        constructor
        · constructor
          · dsimp only
            simp [flen, blen]
            omega
          · dsimp only
            rw [hset]
            simp [blen]
            omega
          · exact bidlen
          · intro hc
            dsimp only at hc
            rw [hshf] at hc
            exact absurd hc (by simp)
          · intro _
            refine ⟨?_, ?_, ?_, ?_⟩ <;>
              (dsimp only; try rw [hk, Nat.mul_zero]
               omega)
        · have h1 : B - s.fe + 1 = (s.back_block.drop s.fe).length + 1 := by rw [hAlen]
          have htake : (s.back_block.drop s.fe
                ++ (v :: (s.back_block.drop (B - s.fe)).tail)).take (B - s.fe + 1)
              = s.back_block.drop s.fe ++ [v] := by
            rw [h1, List.take_append]
            rfl
          unfold absSeq
          dsimp only
          rw [if_neg (by rw [hshf]; simp), if_neg (by rw [hshf]; simp)]
          rw [hset, htake, hbids, hbu,
            @List.take_of_length_le _ B s.back_block (le_of_eq blen)]
          simp only [List.drop_zero, List.flatten_nil, List.nil_append, List.append_nil,
            List.append_assoc]
          rw [← List.append_assoc (s.back_block.take s.fe), List.take_append_drop]
      · -- Case 2: allocate a BID, write the back block, steal a fresh one
        unfold push_back
        rw [if_pos hbu, if_neg hshb, if_neg hlt]
        dsimp only
        constructor
        · constructor
          · exact flen
          · simp
          · intro b hb
            dsimp only at hb
            rcases List.mem_append.1 hb with hb | hb
            · exact bidlen b hb
            · simp at hb
              rw [hb]; exact blen
          · intro hc
            dsimp only at hc
            rw [hshf] at hc
            exact absurd hc (by simp)
          · intro _
            refine ⟨hfeB, le_refl 1, hB, ?_⟩
            dsimp only
            simp only [List.length_append, List.length_cons, List.length_nil,
              Nat.mul_add, Nat.mul_one]
            omega
        · unfold absSeq
          dsimp only
          rw [if_neg (by rw [hshf]; simp), if_neg (by rw [hshf]; simp)]
          rw [List.take_replicate, Nat.min_eq_left hB, List.flatten_append,
            hbu, List.take_of_length_le (le_of_eq blen)]
          simp [List.append_assoc]
  · -- not at the end of the block: plain store
    by_cases hshb : s.shared = true
    · obtain ⟨hfb, hbids, hfe, hbuB, hfeB, hsize⟩ := hsh hshb
      have hk : s.bids.length = 0 := by rw [hbids]; rfl
      have hbult : s.bu < B := by omega
      unfold push_back wrBack
      rw [if_neg hbu]
      dsimp only
      rw [if_pos hshb]
      constructor
      · constructor
        · simpa using flen
        · simpa using blen
        · exact bidlen
        · intro _
          refine ⟨by rw [hfb], hbids, ?_, ?_, ?_, ?_⟩ <;> (dsimp only; omega)
        · intro hc
          dsimp only at hc
          rw [hshb] at hc
          exact absurd hc (by simp)
      · unfold absSeq
        dsimp only
        rw [if_pos hshb, if_pos hshb]
        rw [set_take_last _ _ _ (by rw [flen]; omega), List.drop_append_eq_append_drop,
          (by rw [List.length_take, flen]; omega : (s.front_block.take s.bu).length = s.bu),
          (by omega : s.fe - s.bu = 0)]
        simp
    · have hshf : s.shared = false := by simpa using hshb
      obtain ⟨hfeB, hbu1, hbuB, hsize⟩ := hsp hshf
      have hbult : s.bu < B := by omega
      unfold push_back wrBack
      rw [if_neg hbu]
      dsimp only
      rw [if_neg hshb]
      constructor
      · constructor
        · exact flen
        · simpa using blen
        · exact bidlen
        · intro hc
          dsimp only at hc
          rw [hshf] at hc
          exact absurd hc (by simp)
        · intro _
          refine ⟨hfeB, ?_, ?_, ?_⟩ <;> (dsimp only; omega)
      · unfold absSeq
        dsimp only
        rw [if_neg (by rw [hshf]; simp), if_neg (by rw [hshf]; simp)]
        rw [set_take_last _ _ _ (by rw [blen]; omega)]
        simp [List.append_assoc]

theorem push_front_step {B : Nat} (hB : 1 ≤ B) {s : Seq V} (h : SeqInv B s) (v : V) :
    SeqInv B (push_front B v s).1 ∧ absSeq (push_front B v s).1 = v :: absSeq s := by
  obtain ⟨flen, blen, bidlen, hsh, hsp⟩ := h
  by_cases hfe : s.fe = 0
  · by_cases hz : s.m_size = 0
    · -- Case 0: store into the last cell of the single shared block
      have hsht : s.shared = true := by
        by_contra hc
        have := hsp (by simpa using hc)
        omega
      obtain ⟨hfb, hbids, hfe2, hbuB, hfeB2, hsize⟩ := hsh hsht
      have hbu0 : s.bu = 0 := by omega
      unfold push_front
      rw [if_pos hfe, if_pos hz]
      unfold wrFront
      dsimp only
      rw [if_pos hsht]
      constructor
      · constructor
        · simpa using flen
        · simpa using blen
        · exact bidlen
        · intro _
          refine ⟨by rw [hfb], hbids, ?_, ?_, ?_, ?_⟩ <;> (dsimp only; omega)
        · intro hc
          dsimp only at hc
          rw [hsht] at hc
          exact absurd hc (by simp)
      · unfold absSeq
        dsimp only
        rw [if_pos hsht, if_pos hsht]
        rw [@List.take_of_length_le _ B _ (by simp [flen]),
          drop_set_self _ _ _ (by rw [flen]; omega),
          (by omega : B - 1 + 1 = B),
          List.drop_of_length_le (le_of_eq flen), hbu0]
        simp
    · by_cases hshb : s.shared = true
      · -- Case 1: shared block stays resident, fresh front block
        obtain ⟨hfb, hbids, hfe2, hbuB, hfeB2, hsize⟩ := hsh hshb
        have hk : s.bids.length = 0 := by rw [hbids]; rfl
        unfold push_front
        rw [if_pos hfe, if_neg hz, if_pos hshb]
        dsimp only
        constructor
        · constructor
          · simp
          · exact blen
          · exact bidlen
          · simp
          · intro _
            refine ⟨by dsimp only; omega, ?_, ?_, ?_⟩ <;>
              (dsimp only; (try rw [hk, Nat.mul_zero]); omega)
        · unfold absSeq
          dsimp only
          rw [if_neg (by simp), if_pos hshb]
          rw [List.drop_replicate, (by omega : B - (B - 1) = 1), hbids, hfb, hfe]
          simp
      · have hshf : s.shared = false := by simpa using hshb
        obtain ⟨hfeB, hbu1, hbuB, hsize⟩ := hsp hshf
        rw [hfe] at hsize
        by_cases hlt : s.m_size < 2 * B
        · -- Case 1.5: in-memory compaction
          have hk : s.bids.length = 0 := by
            by_contra hne
            have h1 : 1 ≤ s.bids.length := Nat.pos_of_ne_zero hne
            have h2 : B ≤ B * s.bids.length := Nat.le_mul_of_pos_right B h1
            omega
          have hbids : s.bids = [] := List.eq_nil_of_length_eq_zero hk
          rw [hk, Nat.mul_zero] at hsize
          have hbult : s.bu < B := by omega
          have hBg : B - (B - s.bu) = s.bu := by omega
          have hf1len : (s.front_block.take (B - s.bu)
              ++ s.front_block.take (B - (B - s.bu))).length = B := by
            simp [flen] <;> omega
          unfold push_front
          rw [if_pos hfe, if_neg hz, if_neg hshb, if_pos hlt]
          dsimp only
          constructor
          · constructor
            · dsimp only
              simpa using hf1len
            · dsimp only
              simp [flen, blen]
              omega
            · exact bidlen
            · intro hc
              dsimp only at hc
              rw [hshf] at hc
              exact absurd hc (by simp)
            · intro _
              refine ⟨?_, ?_, ?_, ?_⟩ <;>
                (dsimp only; (try rw [hk, Nat.mul_zero]); omega)
          · unfold absSeq
            dsimp only
            rw [if_neg (by rw [hshf]; simp), if_neg (by rw [hshf]; simp)]
            rw [drop_set_self _ _ _ (by rw [hf1len]; omega),
              (by omega : B - s.bu - 1 + 1 = B - s.bu),
              List.drop_append_eq_append_drop,
              List.drop_of_length_le (by simp [flen] <;> omega),
              (by simp [flen] : (s.front_block.take (B - s.bu)).length = B - s.bu),
              Nat.sub_self, List.drop_zero, List.nil_append, hBg,
              @List.take_of_length_le _ (s.bu + (B - s.bu))
                (s.front_block.drop s.bu ++ s.back_block.take s.bu)
                (by simp [flen, blen] <;> omega),
              hbids, hfe]
            simp only [List.flatten_nil, List.nil_append, List.append_nil, List.drop_zero,
              List.cons_append, List.append_assoc]
            rw [← List.append_assoc (s.front_block.take s.bu), List.take_append_drop]
        · -- Case 2: allocate a BID, write the front block, steal a fresh one
          unfold push_front
          rw [if_pos hfe, if_neg hz, if_neg hshb, if_neg hlt]
          dsimp only
          constructor
          · constructor
            · simp
            · exact blen
            · intro b hb
              dsimp only at hb
              rcases List.mem_cons.1 hb with hb | hb
              · rw [hb]; exact flen
              · exact bidlen b hb
            · intro hc
              dsimp only at hc
              rw [hshf] at hc
              exact absurd hc (by simp)
            · intro _
              refine ⟨by dsimp only; omega, hbu1, hbuB, ?_⟩
              dsimp only
              simp only [List.length_cons, Nat.mul_add, Nat.mul_one]
              omega
          · unfold absSeq
            dsimp only
            rw [if_neg (by rw [hshf]; simp), if_neg (by rw [hshf]; simp)]
            rw [List.drop_replicate, (by omega : B - (B - 1) = 1), List.flatten_cons, hfe]
            simp [List.append_assoc]
  · -- not at the beginning of the block: plain store
    by_cases hshb : s.shared = true
    · obtain ⟨hfb, hbids, hfe2, hbuB, hfeB2, hsize⟩ := hsh hshb
      have hfe1 : 1 ≤ s.fe := Nat.pos_of_ne_zero hfe
      unfold push_front wrFront
      rw [if_neg hfe]
      dsimp only
      rw [if_pos hshb]
      constructor
      · constructor
        · simpa using flen
        · simpa using blen
        · exact bidlen
        · intro _
          refine ⟨by rw [hfb], hbids, ?_, ?_, ?_, ?_⟩ <;> (dsimp only; omega)
        · intro hc
          dsimp only at hc
          rw [hshb] at hc
          exact absurd hc (by simp)
      · unfold absSeq
        dsimp only
        rw [if_pos hshb, if_pos hshb]
        rw [take_set, drop_set_self _ _ _ (by rw [List.length_take, flen]; omega),
          (by omega : s.fe - 1 + 1 = s.fe)]
    · have hshf : s.shared = false := by simpa using hshb
      obtain ⟨hfeB, hbu1, hbuB, hsize⟩ := hsp hshf
      unfold push_front wrFront
      rw [if_neg hfe]
      dsimp only
      rw [if_neg hshb]
      constructor
      · constructor
        · simpa using flen
        · exact blen
        · exact bidlen
        · intro hc
          dsimp only at hc
          rw [hshf] at hc
          exact absurd hc (by simp)
        · intro _
          refine ⟨?_, ?_, ?_, ?_⟩ <;> (dsimp only; omega)
      · unfold absSeq
        dsimp only
        rw [if_neg (by rw [hshf]; simp), if_neg (by rw [hshf]; simp)]
        rw [drop_set_self _ _ _ (by rw [flen]; omega),
          (by omega : s.fe - 1 + 1 = s.fe)]
        simp

theorem pop_front_step {B : Nat} (hB : 1 ≤ B) {s : Seq V} (h : SeqInv B s)
    (hz : s.m_size ≠ 0) :
    SeqInv B (pop_front B s).1 ∧ absSeq (pop_front B s).1 = (absSeq s).tail := by
  obtain ⟨flen, blen, bidlen, hsh, hsp⟩ := h
  by_cases hfe : s.fe = B - 1
  · by_cases hshb : s.shared = true
    · -- Case 1: single element; reset to the empty sentinel
      obtain ⟨hfb, hbids, hfe2, hbuB, hfeB, hsize⟩ := hsh hshb
      have hbuB2 : s.bu = B := by omega
      unfold pop_front
      rw [if_pos hfe, if_pos hshb]
      dsimp only
      constructor
      · constructor
        · exact flen
        · exact blen
        · exact bidlen
        · intro _
          exact ⟨hfb, hbids, le_refl 0, Nat.zero_le B, by dsimp only; omega, rfl⟩
        · intro hc
          dsimp only at hc
          rw [hshb] at hc
          exact absurd hc (by simp)
      · unfold absSeq
        dsimp only
        rw [if_pos hshb, if_pos hshb, hfe, hbuB2]
        rw [List.tail_drop, (by omega : B - 1 + 1 = B),
          List.drop_of_length_le (by rw [List.length_take, flen]; omega)]
        simp
    · have hshf : s.shared = false := by simpa using hshb
      obtain ⟨hfeB, hbu1, hbuB, hsize⟩ := hsp hshf
      rw [hfe] at hsize
      have hfd : s.front_block.drop (B - 1)
          = s.front_block.get ⟨B - 1, by rw [flen]; omega⟩
            :: s.front_block.drop (B - 1 + 1) :=
        List.drop_eq_getElem_cons (by rw [flen]; omega)
      have hfd2 : s.front_block.drop (B - 1 + 1) = [] :=
        List.drop_of_length_le (by rw [flen]; omega)
      by_cases hc2 : s.m_size - 1 ≤ B
      · -- Case 2: the back block becomes the next front block
        have hk : s.bids.length = 0 := by
          by_contra hne
          have h1 : 1 ≤ s.bids.length := Nat.pos_of_ne_zero hne
          have h2 : B ≤ B * s.bids.length := Nat.le_mul_of_pos_right B h1
          omega
        have hbids : s.bids = [] := List.eq_nil_of_length_eq_zero hk
        rw [hk, Nat.mul_zero] at hsize
        unfold pop_front
        rw [if_pos hfe, if_neg hshb, if_pos hc2]
        dsimp only
        constructor
        · constructor
          · exact blen
          · exact blen
          · exact bidlen
          · intro _
            exact ⟨rfl, hbids, Nat.zero_le _, hbuB, by dsimp only; omega, by dsimp only; omega⟩
          · intro hc
            dsimp only at hc
            exact absurd hc (by simp)
        · unfold absSeq
          dsimp only
          rw [if_pos rfl, if_neg (by rw [hshf]; simp), hfe, hfd, hfd2, hbids]
          simp
      · -- Case 3: read the new front block from the first BID
        have hkpos : 1 ≤ s.bids.length := by
          by_contra hne
          have h0 : s.bids.length = 0 := by omega
          rw [h0, Nat.mul_zero] at hsize
          omega
        obtain ⟨a, t, hat⟩ : ∃ a t, s.bids = a :: t := by
          cases hbb : s.bids with
          | nil => rw [hbb] at hkpos; simp at hkpos
          | cons a t => exact ⟨a, t, rfl⟩
        rw [hat] at hsize
        simp only [List.length_cons, Nat.mul_add, Nat.mul_one] at hsize
        unfold pop_front
        rw [if_pos hfe, if_neg hshb, if_neg hc2]
        dsimp only
        rw [hat]
        dsimp only [List.headD_cons, List.tail_cons]
        constructor
        · constructor
          · exact bidlen a (by rw [hat]; exact List.mem_cons_self a t)
          · exact blen
          · intro b hb
            exact bidlen b (by rw [hat]; exact List.mem_cons_of_mem a hb)
          · intro hc
            dsimp only at hc
            rw [hshf] at hc
            exact absurd hc (by simp)
          · intro _
            refine ⟨by dsimp only; omega, hbu1, hbuB, ?_⟩
            dsimp only
            omega
        · unfold absSeq
          dsimp only
          rw [if_neg (by rw [hshf]; simp), if_neg (by rw [hshf]; simp), hfe, hat, hfd, hfd2]
          simp [List.append_assoc]
  · -- not at the end of the front block: advance the front cursor
    by_cases hshb : s.shared = true
    · obtain ⟨hfb, hbids, hfe2, hbuB, hfeB, hsize⟩ := hsh hshb
      unfold pop_front
      rw [if_neg hfe]
      dsimp only
      constructor
      · constructor
        · exact flen
        · exact blen
        · exact bidlen
        · intro _
          exact ⟨hfb, hbids, by dsimp only; omega, hbuB, by dsimp only; omega, by dsimp only; omega⟩
        · intro hc
          dsimp only at hc
          rw [hshb] at hc
          exact absurd hc (by simp)
      · unfold absSeq
        dsimp only
        rw [if_pos hshb, if_pos hshb, List.tail_drop]
    · have hshf : s.shared = false := by simpa using hshb
      obtain ⟨hfeB, hbu1, hbuB, hsize⟩ := hsp hshf
      unfold pop_front
      rw [if_neg hfe]
      dsimp only
      constructor
      · constructor
        · exact flen
        · exact blen
        · exact bidlen
        · intro hc
          dsimp only at hc
          rw [hshf] at hc
          exact absurd hc (by simp)
        · intro _
          refine ⟨?_, hbu1, hbuB, ?_⟩ <;> (dsimp only; omega)
      · unfold absSeq
        dsimp only
        rw [if_neg (by rw [hshf]; simp), if_neg (by rw [hshf]; simp),
          List.drop_eq_getElem_cons (by rw [flen]; omega : s.fe < s.front_block.length)]
        simp only [List.cons_append, List.tail_cons, List.append_assoc]

theorem pop_back_step {B : Nat} (hB : 1 ≤ B) {s : Seq V} (h : SeqInv B s)
    (hz : s.m_size ≠ 0) :
    SeqInv B (pop_back B s).1 ∧ absSeq (pop_back B s).1 = (absSeq s).dropLast := by
  obtain ⟨flen, blen, bidlen, hsh, hsp⟩ := h
  by_cases hbu : s.bu = 1
  · by_cases hshb : s.shared = true
    · -- Case 1: single element; reset to the empty sentinel
      obtain ⟨hfb, hbids, hfe2, hbuB, hfeB, hsize⟩ := hsh hshb
      have hfe0 : s.fe = 0 := by omega
      unfold pop_back
      rw [if_pos hbu, if_pos hshb]
      dsimp only
      constructor
      · constructor
        · exact flen
        · exact blen
        · exact bidlen
        · intro _
          exact ⟨hfb, hbids, le_refl 0, Nat.zero_le B, by dsimp only; omega, rfl⟩
        · intro hc
          dsimp only at hc
          rw [hshb] at hc
          exact absurd hc (by simp)
      · unfold absSeq
        dsimp only
        rw [if_pos hshb, if_pos hshb, hbu, hfe0]
        rw [List.drop_zero, List.drop_zero, List.take_zero, List.dropLast_eq_take,
          List.length_take, flen, (by omega : min 1 B - 1 = 0), List.take_zero]
    · have hshf : s.shared = false := by simpa using hshb
      obtain ⟨hfeB, hbu1, hbuB, hsize⟩ := hsp hshf
      rw [hbu] at hsize
      obtain ⟨b0, bt, hbb⟩ : ∃ x tl, s.back_block = x :: tl := by
        cases hcc : s.back_block with
        | nil => rw [hcc] at blen; simp at blen; omega
        | cons x tl => exact ⟨x, tl, rfl⟩
      by_cases hc2 : s.m_size - 1 ≤ B
      · -- Case 2: the front block becomes the next back block
        have hk : s.bids.length = 0 := by
          by_contra hne
          have h1 : 1 ≤ s.bids.length := Nat.pos_of_ne_zero hne
          have h2 : B ≤ B * s.bids.length := Nat.le_mul_of_pos_right B h1
          omega
        have hbids : s.bids = [] := List.eq_nil_of_length_eq_zero hk
        rw [hk, Nat.mul_zero] at hsize
        unfold pop_back
        rw [if_pos hbu, if_neg hshb, if_pos hc2]
        dsimp only
        constructor
        · constructor
          · exact flen
          · exact flen
          · exact bidlen
          · intro _
            exact ⟨rfl, hbids, by dsimp only; omega, le_refl B, hfeB, by dsimp only; omega⟩
          · intro hc
            dsimp only at hc
            exact absurd hc (by simp)
        · unfold absSeq
          dsimp only
          rw [if_pos rfl, if_neg (by rw [hshf]; simp), hbu, hbids, hbb,
            @List.take_of_length_le _ B s.front_block (le_of_eq flen)]
          simp
      · -- Case 3: read the new back block from the last BID
        have hkpos : 1 ≤ s.bids.length := by
          by_contra hne
          have h0 : s.bids.length = 0 := by omega
          rw [h0, Nat.mul_zero] at hsize
          omega
        have hbne : s.bids ≠ [] := by
          intro hc; rw [hc] at hkpos; simp at hkpos
        obtain ⟨ys, a, hya⟩ : ∃ ys a, s.bids = ys ++ [a] :=
          ⟨s.bids.dropLast, s.bids.getLast hbne, (List.dropLast_append_getLast hbne).symm⟩
        have halen : a.length = B :=
          bidlen a (by rw [hya]; exact List.mem_append_right ys (by simp))
        rw [hya] at hsize
        simp only [List.length_append, List.length_cons, List.length_nil,
          Nat.mul_add, Nat.mul_one] at hsize
        unfold pop_back
        rw [if_pos hbu, if_neg hshb, if_neg hc2]
        dsimp only
        rw [hya, List.dropLast_concat,
          (by simp [List.getLastD_eq_getLast?, List.getLast?_concat] :
            (ys ++ [a]).getLastD s.back_block = a)]
        constructor
        · constructor
          · exact flen
          · exact halen
          · intro b hb
            exact bidlen b (by rw [hya]; exact List.mem_append_left [a] hb)
          · intro hc
            dsimp only at hc
            rw [hshf] at hc
            exact absurd hc (by simp)
          · intro _
            refine ⟨hfeB, by dsimp only; omega, le_refl B, ?_⟩
            dsimp only
            omega
        · unfold absSeq
          dsimp only
          rw [if_neg (by rw [hshf]; simp), if_neg (by rw [hshf]; simp), hya, hbu, hbb]
          rw [@List.take_of_length_le _ B a (le_of_eq halen), List.flatten_append]
          simp only [List.flatten_cons, List.flatten_nil, List.append_nil,
            List.take_succ_cons, List.take_zero, List.append_assoc]
          rw [(by simp : s.front_block.drop s.fe ++ (ys.flatten ++ (a ++ [b0]))
              = (s.front_block.drop s.fe ++ (ys.flatten ++ a)) ++ [b0]),
            List.dropLast_concat]
  · -- not at the beginning of the back block: retreat the back cursor
    by_cases hshb : s.shared = true
    · obtain ⟨hfb, hbids, hfe2, hbuB, hfeB, hsize⟩ := hsh hshb
      have hbu2 : 2 ≤ s.bu := by omega
      have haux : ((s.front_block.take s.bu).drop s.fe).length = s.bu - s.fe := by
        rw [List.length_drop, List.length_take, flen]; omega
      unfold pop_back
      rw [if_neg hbu]
      dsimp only
      constructor
      · constructor
        · exact flen
        · exact blen
        · exact bidlen
        · intro _
          exact ⟨hfb, hbids, by dsimp only; omega, by dsimp only; omega, hfeB, by dsimp only; omega⟩
        · intro hc
          dsimp only at hc
          rw [hshb] at hc
          exact absurd hc (by simp)
      · unfold absSeq
        dsimp only
        rw [if_pos hshb, if_pos hshb, List.dropLast_eq_take, haux, List.take_drop,
          (by omega : s.fe + (s.bu - s.fe - 1) = s.bu - 1), List.take_take,
          Nat.min_eq_left (by omega)]
    · have hshf : s.shared = false := by simpa using hshb
      obtain ⟨hfeB, hbu1, hbuB, hsize⟩ := hsp hshf
      have hbu2 : 2 ≤ s.bu := by omega
      have hdl : (s.back_block.take s.bu).dropLast = s.back_block.take (s.bu - 1) := by
        rw [List.dropLast_eq_take, List.length_take, blen, (by omega : min s.bu B - 1 = s.bu - 1),
          List.take_take, Nat.min_eq_left (by omega)]
      have htne : s.back_block.take s.bu ≠ [] := by
        intro hc
        have := congrArg List.length hc
        rw [List.length_take, blen] at this
        simp at this
        omega
      unfold pop_back
      rw [if_neg hbu]
      dsimp only
      constructor
      · constructor
        · exact flen
        · exact blen
        · exact bidlen
        · intro hc
          dsimp only at hc
          rw [hshf] at hc
          exact absurd hc (by simp)
        · intro _
          refine ⟨hfeB, ?_, ?_, ?_⟩ <;> (dsimp only; omega)
      · unfold absSeq
        dsimp only
        rw [if_neg (by rw [hshf]; simp), if_neg (by rw [hshf]; simp),
          List.dropLast_append_of_ne_nil _ htne, hdl]

theorem absSeq_length {B : Nat} {s : Seq V} (h : SeqInv B s) :
    (absSeq s).length = s.m_size := by
  obtain ⟨flen, blen, bidlen, hsh, hsp⟩ := h
  by_cases hshb : s.shared = true
  · obtain ⟨hfb, hbids, hfe2, hbuB, hfeB, hsize⟩ := hsh hshb
    unfold absSeq
    rw [if_pos hshb, List.length_drop, List.length_take, flen]
    omega
  · have hshf : s.shared = false := by simpa using hshb
    obtain ⟨hfeB, hbu1, hbuB, hsize⟩ := hsp hshf
    unfold absSeq
    rw [if_neg hshb]
    simp only [List.length_append, List.length_drop, List.length_take,
      flatten_length_uniform B s.bids bidlen, flen, blen]
    omega

theorem absSeq_eq_nil {B : Nat} {s : Seq V} (h : SeqInv B s) (hz : s.m_size = 0) :
    absSeq s = [] :=
  List.eq_nil_of_length_eq_zero (by rw [absSeq_length h, hz])

theorem front?_absSeq {B : Nat} {s : Seq V} (h : SeqInv B s) :
    front? s = (absSeq s).head? := by
  by_cases hz : s.m_size = 0
  · rw [absSeq_eq_nil h hz]
    unfold front?
    rw [if_pos hz]
    rfl
  · obtain ⟨flen, blen, bidlen, hsh, hsp⟩ := h
    unfold front?
    rw [if_neg hz]
    by_cases hshb : s.shared = true
    · obtain ⟨hfb, hbids, hfe2, hbuB, hfeB, hsize⟩ := hsh hshb
      unfold absSeq
      rw [if_pos hshb, List.head?_drop, List.getElem?_take]
      rw [if_pos (by omega)]
    · have hshf : s.shared = false := by simpa using hshb
      obtain ⟨hfeB, hbu1, hbuB, hsize⟩ := hsp hshf
      have hne : s.front_block.drop s.fe ≠ [] := by
        intro hc
        have := congrArg List.length hc
        rw [List.length_drop, flen] at this
        simp at this
        omega
      unfold absSeq
      rw [if_neg hshb, List.append_assoc, List.head?_append_of_ne_nil _ hne,
        List.head?_drop]

theorem back?_absSeq {B : Nat} {s : Seq V} (h : SeqInv B s) :
    back? s = (absSeq s).getLast? := by
  by_cases hz : s.m_size = 0
  · rw [absSeq_eq_nil h hz]
    unfold back?
    rw [if_pos hz]
    rfl
  · obtain ⟨flen, blen, bidlen, hsh, hsp⟩ := h
    unfold back?
    rw [if_neg hz]
    by_cases hshb : s.shared = true
    · obtain ⟨hfb, hbids, hfe2, hbuB, hfeB, hsize⟩ := hsh hshb
      unfold absSeq
      rw [if_pos hshb, List.getLast?_eq_getElem?, List.length_drop, List.length_take,
        List.getElem?_drop, flen, List.getElem?_take]
      rw [if_pos (by omega), (by omega : s.fe + (min s.bu B - s.fe - 1) = s.bu - 1), hfb]
    · have hshf : s.shared = false := by simpa using hshb
      obtain ⟨hfeB, hbu1, hbuB, hsize⟩ := hsp hshf
      have hne : s.back_block.take s.bu ≠ [] := by
        intro hc
        have := congrArg List.length hc
        rw [List.length_take, blen] at this
        simp at this
        omega
      unfold absSeq
      rw [if_neg hshb, List.getLast?_append_of_ne_nil _ hne, List.getLast?_take,
        if_neg (by omega), List.getElem?_eq_getElem (by rw [blen]; omega), Option.or_some]

theorem foldl_step_inv {B : Nat} (hB : 1 ≤ B) :
    ∀ (prog : List (Op V)) (s : Seq V) (r : List V),
      SeqInv B s → absSeq s = r →
      SeqInv B (prog.foldl (step B) s)
        ∧ absSeq (prog.foldl (step B) s) = prog.foldl refStep r := by
  intro prog
  induction prog with
  | nil => exact fun s r h habs => ⟨h, habs⟩
  | cons op rest ih =>
    intro s r h habs
    simp only [List.foldl_cons]
    cases op with
    | pushF v =>
      exact ih _ _ (push_front_step hB h v).1
        (by simp only [step]; rw [(push_front_step hB h v).2, habs]; rfl)
    | pushB v =>
      exact ih _ _ (push_back_step hB h v).1
        (by simp only [step]; rw [(push_back_step hB h v).2, habs]; rfl)
    | popF =>
      by_cases hz : s.m_size = 0
      · have hr : r = [] := habs ▸ absSeq_eq_nil h hz
        simp only [step, if_pos hz]
        exact ih _ _ h (by rw [habs, hr]; rfl)
      · simp only [step, if_neg hz]
        exact ih _ _ (pop_front_step hB h hz).1
          (by rw [(pop_front_step hB h hz).2, habs]; rfl)
    | popB =>
      by_cases hz : s.m_size = 0
      · have hr : r = [] := habs ▸ absSeq_eq_nil h hz
        simp only [step, if_pos hz]
        exact ih _ _ h (by rw [habs, hr]; rfl)
      · simp only [step, if_neg hz]
        exact ih _ _ (pop_back_step hB h hz).1
          (by rw [(pop_back_step hB h hz).2, habs]; rfl)

theorem runProg_inv {B P : Nat} (hB : 1 ≤ B) (d : V) (prog : List (Op V)) :
    SeqInv B (runProg B P d prog) ∧ absSeq (runProg B P d prog) = runRef prog :=
  foldl_step_inv hB prog (initSeq B P d) [] (initSeq_inv d hB) (absSeq_initSeq d)

theorem fe_lt_of_inv {B : Nat} {s : Seq V} (h : SeqInv B s) : s.fe < B := by
  obtain ⟨flen, blen, bidlen, hsh, hsp⟩ := h
  by_cases hshb : s.shared = true
  · exact (hsh hshb).2.2.2.2.1
  · exact (hsp (by simpa using hshb)).1

theorem pushAllBack_inv {B : Nat} (hB : 1 ≤ B) :
    ∀ (xs : List V) (s : Seq V), SeqInv B s →
      SeqInv B (pushAllBack B xs s) ∧ absSeq (pushAllBack B xs s) = absSeq s ++ xs := by
  intro xs
  induction xs with
  | nil => intro s h; exact ⟨h, by simp [pushAllBack]⟩
  | cons x rest ih =>
    intro s h
    have hstep : pushAllBack B (x :: rest) s = pushAllBack B rest (push_back B x s).1 := rfl
    rw [hstep]
    obtain ⟨h1, h2⟩ := push_back_step hB h x
    obtain ⟨h3, h4⟩ := ih _ h1
    refine ⟨h3, ?_⟩
    rw [h4, h2]
    simp

theorem pushAllFront_inv {B : Nat} (hB : 1 ≤ B) :
    ∀ (xs : List V) (s : Seq V), SeqInv B s →
      SeqInv B (pushAllFront B xs s)
        ∧ absSeq (pushAllFront B xs s) = xs.reverse ++ absSeq s := by
  intro xs
  induction xs with
  | nil => intro s h; exact ⟨h, by simp [pushAllFront]⟩
  | cons x rest ih =>
    intro s h
    have hstep : pushAllFront B (x :: rest) s = pushAllFront B rest (push_front B x s).1 := rfl
    rw [hstep]
    obtain ⟨h1, h2⟩ := push_front_step hB h x
    obtain ⟨h3, h4⟩ := ih _ h1
    refine ⟨h3, ?_⟩
    rw [h4, h2]
    simp

theorem drainFront_eq {B : Nat} (hB : 1 ≤ B) (d : V) :
    ∀ (n : Nat) (s : Seq V), SeqInv B s → s.m_size ≤ n → drainFront B d n s = absSeq s := by
  intro n
  induction n with
  | zero =>
    intro s h hle
    rw [absSeq_eq_nil h (by omega)]
    rfl
  | succ m ih =>
    intro s h hle
    by_cases hz : s.m_size = 0
    · rw [absSeq_eq_nil h hz]
      unfold drainFront
      rw [if_pos hz]
    · have hlt : s.fe < s.front_block.length := by rw [h.flen]; exact fe_lt_of_inv h
      have hhead : (absSeq s).head? = some (s.front_block.getD s.fe d) := by
        rw [← front?_absSeq h]
        unfold front?
        rw [if_neg hz, List.getD_eq_getElem?_getD, List.getElem?_eq_getElem hlt]
        rfl
      obtain ⟨hpinv, hpabs⟩ := pop_front_step hB h hz
      have hpsize : (pop_front B s).1.m_size = s.m_size - 1 := by
        have h1 := absSeq_length hpinv
        rw [hpabs, List.length_tail, absSeq_length h] at h1
        omega
      cases habs : absSeq s with
      | nil =>
        rw [habs] at hhead
        simp at hhead
      | cons a t =>
        rw [habs] at hhead
        simp only [List.head?_cons, Option.some.injEq] at hhead
        unfold drainFront
        rw [if_neg hz, ih (pop_front B s).1 hpinv (by omega), hpabs, habs, ← hhead]
        rfl

theorem drainBack_eq {B : Nat} (hB : 1 ≤ B) (d : V) :
    ∀ (n : Nat) (s : Seq V), SeqInv B s → s.m_size ≤ n →
      drainBack B d n s = (absSeq s).reverse := by
  intro n
  induction n with
  | zero =>
    intro s h hle
    rw [absSeq_eq_nil h (by omega)]
    rfl
  | succ m ih =>
    intro s h hle
    by_cases hz : s.m_size = 0
    · rw [absSeq_eq_nil h hz]
      unfold drainBack
      rw [if_pos hz]
      rfl
    · have hlast : (absSeq s).getLast? = some (s.back_block.getD (s.bu - 1) d) := by
        rw [← back?_absSeq h]
        unfold back?
        have hlt : s.bu - 1 < s.back_block.length := by
          rw [h.blen]
          have h1 := fe_lt_of_inv h
          obtain ⟨flen, blen, bidlen, hsh, hsp⟩ := h
          by_cases hshb : s.shared = true
          · obtain ⟨_, _, _, _, _, _⟩ := hsh hshb
            omega
          · obtain ⟨_, _, _, _⟩ := hsp (by simpa using hshb)
            omega
        rw [if_neg hz, List.getD_eq_getElem?_getD, List.getElem?_eq_getElem hlt]
        rfl
      obtain ⟨hpinv, hpabs⟩ := pop_back_step hB h hz
      have hpsize : (pop_back B s).1.m_size = s.m_size - 1 := by
        have h1 := absSeq_length hpinv
        rw [hpabs, List.length_dropLast, absSeq_length h] at h1
        omega
      cases hrev : (absSeq s).reverse with
      | nil =>
        have : absSeq s = [] := by
          have := congrArg List.reverse hrev
          simpa using this
        rw [this] at hlast
        simp at hlast
      | cons a t =>
        have habs : absSeq s = t.reverse ++ [a] := by
          have := congrArg List.reverse hrev
          simpa using this
        have ha : a = s.back_block.getD (s.bu - 1) d := by
          rw [habs, List.getLast?_concat] at hlast
          simpa using hlast
        have hdrop : (absSeq s).dropLast = t.reverse := by
          rw [habs, List.dropLast_concat]
        unfold drainBack
        rw [if_neg hz, ih (pop_back B s).1 hpinv (by omega), hpabs, hdrop]
        rw [← ha]
        simp

/-- C1: for every finite interleaved program of `push_front`, `push_back`,
`pop_front` and `pop_back` (pops performed only on a non-empty sequence),
the observable state after each step — `size()`, `empty()`, `front()` and
`back()` — equals that of an in-memory reference deque executing the same
program.  Quantifying over all programs covers every intermediate step. -/
theorem claim_C1_sequence_refines_deque {B P : Nat} (hB : 1 ≤ B) (d : V)
    (prog : List (Op V)) :
    size (runProg B P d prog) = (runRef prog).length
    ∧ (empty (runProg B P d prog) = true ↔ runRef prog = [])
    ∧ front? (runProg B P d prog) = (runRef prog).head?
    ∧ back? (runProg B P d prog) = (runRef prog).getLast? := by
  obtain ⟨hinv, habs⟩ := runProg_inv (B := B) (P := P) hB d prog
  have hlen : size (runProg B P d prog) = (runRef prog).length := by
    rw [← habs, absSeq_length hinv]
    rfl
  refine ⟨hlen, ?_, ?_, ?_⟩
  · unfold empty
    rw [show (runProg B P d prog).m_size = size (runProg B P d prog) from rfl, hlen]
    simp [List.length_eq_zero]
  · rw [front?_absSeq hinv, habs]
  · rw [back?_absSeq hinv, habs]

/-- Witness for C1 at `B = 2`, `blocks2prefetch = 4`, a mixed 17-operation
program over `Int`. -/
theorem claim_C1_witness :
    size (runProg 2 4 (0 : Int) progW) = (runRef progW).length
    ∧ (empty (runProg 2 4 (0 : Int) progW) = true ↔ runRef progW = [])
    ∧ front? (runProg 2 4 (0 : Int) progW) = (runRef progW).head?
    ∧ back? (runProg 2 4 (0 : Int) progW) = (runRef progW).getLast? :=
  claim_C1_sequence_refines_deque (by decide) 0 progW

/-- C2: pushing `xs` with `push_back` and then draining with
`front()`/`pop_front` yields `xs` in order; pushing `xs` with `push_front`
and draining with `back()`/`pop_back` also yields `xs` in order, the
sequence then holding `xs.reverse` front-to-back. -/
theorem claim_C2_round_trip {B P : Nat} (hB : 1 ≤ B) (d : V) (xs : List V) :
    drainFront B d (pushAllBack B xs (initSeq B P d)).m_size
        (pushAllBack B xs (initSeq B P d)) = xs
    ∧ drainBack B d (pushAllFront B xs (initSeq B P d)).m_size
        (pushAllFront B xs (initSeq B P d)) = xs
    ∧ absSeq (pushAllFront B xs (initSeq B P d)) = xs.reverse := by
  obtain ⟨hbinv, hbabs⟩ := pushAllBack_inv hB xs (initSeq B P d) (initSeq_inv d hB)
  obtain ⟨hfinv, hfabs⟩ := pushAllFront_inv hB xs (initSeq B P d) (initSeq_inv d hB)
  rw [absSeq_initSeq] at hbabs hfabs
  simp only [List.nil_append, List.append_nil] at hbabs hfabs
  refine ⟨?_, ?_, hfabs⟩
  · rw [drainFront_eq hB d _ _ hbinv (le_refl _), hbabs]
  · rw [drainBack_eq hB d _ _ hfinv (le_refl _), hfabs]
    simp

/-- Witness for C2 at `B = 2`, five elements. -/
theorem claim_C2_witness :
    drainFront 2 (0 : Int) (pushAllBack 2 [3, 1, 4, 1, 5] (initSeq 2 4 (0 : Int))).m_size
        (pushAllBack 2 [3, 1, 4, 1, 5] (initSeq 2 4 (0 : Int))) = [3, 1, 4, 1, 5]
    ∧ drainBack 2 (0 : Int) (pushAllFront 2 [3, 1, 4, 1, 5] (initSeq 2 4 (0 : Int))).m_size
        (pushAllFront 2 [3, 1, 4, 1, 5] (initSeq 2 4 (0 : Int))) = [3, 1, 4, 1, 5]
    ∧ absSeq (pushAllFront 2 [3, 1, 4, 1, 5] (initSeq 2 4 (0 : Int)))
        = [3, 1, 4, 1, 5].reverse :=
  claim_C2_round_trip (by decide) 0 [3, 1, 4, 1, 5]

/-- C9 (implicit invariant): whenever the BID deque holds `k > 0` block
identifiers, the front and back blocks are distinct, each holds at least one
live element (`fe < B` and `1 ≤ bu`), and `size ≥ k·B + 2`; consequently the
BID deque is empty whenever `size ≤ B + 1`. -/
theorem claim_C9_bid_invariant {B P : Nat} (hB : 1 ≤ B) (d : V) (prog : List (Op V)) :
    (0 < (runProg B P d prog).bids.length →
      (runProg B P d prog).shared = false
      ∧ (runProg B P d prog).fe < B
      ∧ 1 ≤ (runProg B P d prog).bu
      ∧ (runProg B P d prog).bids.length * B + 2 ≤ size (runProg B P d prog))
    ∧ (size (runProg B P d prog) ≤ B + 1 → (runProg B P d prog).bids = []) := by
  obtain ⟨hinv, habs⟩ := runProg_inv (B := B) (P := P) hB d prog
  obtain ⟨flen, blen, bidlen, hsh, hsp⟩ := hinv
  constructor
  · intro hk
    by_cases hshb : (runProg B P d prog).shared = true
    · obtain ⟨_, hbids, _, _, _, _⟩ := hsh hshb
      rw [hbids] at hk
      simp at hk
    · have hshf : (runProg B P d prog).shared = false := by simpa using hshb
      obtain ⟨hfeB, hbu1, hbuB, hsize⟩ := hsp hshf
      refine ⟨hshf, hfeB, hbu1, ?_⟩
      unfold size
      rw [Nat.mul_comm]
      omega
  · intro hsz
    unfold size at hsz
    by_cases hshb : (runProg B P d prog).shared = true
    · exact (hsh hshb).2.1
    · obtain ⟨hfeB, hbu1, hbuB, hsize⟩ := hsp (by simpa using hshb)
      have hk : (runProg B P d prog).bids.length = 0 := by
        by_contra hne
        have h1 : 1 ≤ (runProg B P d prog).bids.length := Nat.pos_of_ne_zero hne
        have h2 : B ≤ B * (runProg B P d prog).bids.length :=
          Nat.le_mul_of_pos_right B h1
        omega
      exact List.eq_nil_of_length_eq_zero hk

/-- Witness for C9: after nine `push_back`s at `B = 2` the BID deque holds
three BIDs, and the invariant instantiates there. -/
theorem claim_C9_witness :
    0 < (runProg 2 4 (0 : Int) progNineB).bids.length
    ∧ ((0 < (runProg 2 4 (0 : Int) progNineB).bids.length →
        (runProg 2 4 (0 : Int) progNineB).shared = false
        ∧ (runProg 2 4 (0 : Int) progNineB).fe < 2
        ∧ 1 ≤ (runProg 2 4 (0 : Int) progNineB).bu
        ∧ (runProg 2 4 (0 : Int) progNineB).bids.length * 2 + 2
            ≤ size (runProg 2 4 (0 : Int) progNineB))
      ∧ (size (runProg 2 4 (0 : Int) progNineB) ≤ 2 + 1 →
          (runProg 2 4 (0 : Int) progNineB).bids = [])) :=
  ⟨by decide, claim_C9_bid_invariant (by decide) 0 progNineB⟩

/-- Counterexample to C7: `sequence(D)` does not create a write pool of
size `D` and a prefetch pool of size `D + 2`; at `D = 2` the pools are the
other way around (write pool `4`, prefetch pool `2`). -/
theorem claim_C7_counterexample :
    (sequence_ctor_D 2).size_write = 4 ∧ (sequence_ctor_D 2).size_prefetch = 2
    ∧ ¬((sequence_ctor_D 2).size_write = 2 ∧ (sequence_ctor_D 2).size_prefetch = 2 + 2) := by
  decide

/-- C7 amended: for every `D ≥ 1`, the default constructor `sequence(D)`
creates a write pool of size `D + 2` and a prefetch pool of size `D`
(the constructor passes `pool_type(disks, disks + 2)` and the pool
constructor takes the prefetch size first; `init()` leaves the sizes
unchanged because `D + 2 ≥ 2`). -/
theorem claim_C7_amended (D : Nat) (hD : 1 ≤ D) :
    (sequence_ctor_D D).size_write = D + 2
    ∧ (sequence_ctor_D D).size_prefetch = D := by
  unfold sequence_ctor_D seq_init_pool
  rw [if_neg (by dsimp only; omega)]
  exact ⟨rfl, rfl⟩

/-- Witness for the amended C7 at `D = 3`. -/
theorem claim_C7_amended_witness :
    1 ≤ 3
    ∧ (sequence_ctor_D 3).size_write = 3 + 2
    ∧ (sequence_ctor_D 3).size_prefetch = 3 :=
  ⟨by decide, claim_C7_amended 3 (by decide)⟩

/-- C8: `init()` silently corrects a write pool of capacity below 2 by
resizing it to 3 (the prefetch pool untouched), and a prefetch pool of
capacity below 1 is allowed without altering the configuration. -/
theorem claim_C8_init_correction (w p : Nat) :
    (w < 2 → sequence_ctor_sizes w p = ⟨p, 3⟩)
    ∧ (2 ≤ w → sequence_ctor_sizes w p = ⟨p, w⟩) := by
  constructor
  · intro hw
    unfold sequence_ctor_sizes seq_init_pool
    rw [if_pos (by dsimp only; omega)]
  · intro hw
    unfold sequence_ctor_sizes seq_init_pool
    rw [if_neg (by dsimp only; omega)]

/-- Witness for C8: a write pool of 1 is corrected to 3 with a prefetch
pool of 0 left alone; a write pool of 2 with prefetch pool 0 is kept. -/
theorem claim_C8_witness :
    ((1 : Nat) < 2 → sequence_ctor_sizes 1 0 = ⟨0, 3⟩)
    ∧ (2 ≤ (1 : Nat) → sequence_ctor_sizes 1 0 = ⟨0, 1⟩) :=
  claim_C8_init_correction 1 0

/-- C10 (implicit frame property of pops): `pop_front` and `pop_back` never
allocate a BID and never enqueue a block write — their event traces contain
only reads, hints, BID releases and pool returns — and the BID deque never
grows. -/
theorem claim_C10_pop_frame {B : Nat} (s : Seq V) :
    (∀ e ∈ (pop_front B s).2, e ≠ Ev.alloc ∧ e ≠ Ev.write)
    ∧ (∀ e ∈ (pop_back B s).2, e ≠ Ev.alloc ∧ e ≠ Ev.write)
    ∧ (pop_front B s).1.bids.length ≤ s.bids.length
    ∧ (pop_back B s).1.bids.length ≤ s.bids.length := by
  refine ⟨?_, ?_, ?_, ?_⟩
  · intro e he
    unfold pop_front at he
    split at he
    · split at he
      · simp at he
      · split at he
        · simp at he
          rw [he]
          exact ⟨by simp, by simp⟩
        · simp at he
          rcases he with he | he | he
          · rw [he]; exact ⟨by simp, by simp⟩
          · rw [he.2]; exact ⟨by simp, by simp⟩
          · rw [he]; exact ⟨by simp, by simp⟩
    · simp at he
  · intro e he
    unfold pop_back at he
    split at he
    · split at he
      · simp at he
      · split at he
        · simp at he
          rw [he]
          exact ⟨by simp, by simp⟩
        · simp at he
          rcases he with he | he | he
          · rw [he]; exact ⟨by simp, by simp⟩
          · rw [he.2]; exact ⟨by simp, by simp⟩
          · rw [he]; exact ⟨by simp, by simp⟩
    · simp at he
  · unfold pop_front
    split
    · split
      · simp
      · split
        · simp
        · dsimp only
          rw [List.length_tail]
          omega
    · simp
  · unfold pop_back
    split
    · split
      · simp
      · split
        · simp
        · dsimp only
          rw [List.length_dropLast]
          omega
    · simp

theorem pushAllBack_state {B : Nat} (hB : 1 ≤ B) (d : V) (P : Nat) :
    ∀ (xs : List V),
      (xs.length ≤ B →
        (pushAllBack B xs (initSeq B P d)).shared = true
        ∧ (pushAllBack B xs (initSeq B P d)).fe = 0
        ∧ (pushAllBack B xs (initSeq B P d)).bu = xs.length
        ∧ (pushAllBack B xs (initSeq B P d)).m_size = xs.length
        ∧ (pushAllBack B xs (initSeq B P d)).bids = [])
      ∧ (B < xs.length → xs.length ≤ 2 * B →
        (pushAllBack B xs (initSeq B P d)).shared = false
        ∧ (pushAllBack B xs (initSeq B P d)).fe = 0
        ∧ (pushAllBack B xs (initSeq B P d)).bu = xs.length - B
        ∧ (pushAllBack B xs (initSeq B P d)).m_size = xs.length
        ∧ (pushAllBack B xs (initSeq B P d)).bids = []) := by
  intro xs
  induction xs using List.reverseRecOn with
  | nil => exact ⟨fun _ => ⟨rfl, rfl, rfl, rfl, rfl⟩, fun hlt _ => absurd hlt (by simp)⟩
  | append_singleton ys y ih =>
    have hstep : pushAllBack B (ys ++ [y]) (initSeq B P d)
        = (push_back B y (pushAllBack B ys (initSeq B P d))).1 := by
      unfold pushAllBack
      rw [List.foldl_append]
      rfl
    constructor
    · intro hlen
      rw [List.length_append, List.length_cons, List.length_nil] at hlen
      obtain ⟨h1, h2, h3, h4, h5⟩ := ih.1 (by omega)
      rw [hstep]
      unfold push_back
      rw [if_neg (by omega)]
      unfold wrBack
      dsimp only
      rw [h1]
      refine ⟨rfl, h2, by rw [h3]; simp, by rw [h4]; simp, h5⟩
    · intro hlt hle
      rw [List.length_append, List.length_cons, List.length_nil] at hlt hle
      by_cases hyB : ys.length = B
      · obtain ⟨h1, h2, h3, h4, h5⟩ := ih.1 (by omega)
        rw [hstep]
        unfold push_back
        rw [if_pos (by rw [h3, hyB]), if_pos h1]
        dsimp only
        refine ⟨rfl, h2, by simp; omega, by rw [h4]; simp, h5⟩
      · obtain ⟨h1, h2, h3, h4, h5⟩ := ih.2 (by omega) (by omega)
        rw [hstep]
        unfold push_back
        rw [if_neg (by rw [h3]; omega)]
        unfold wrBack
        dsimp only
        rw [h1]
        refine ⟨rfl, h2, by rw [h3]; simp; omega, by rw [h4]; simp, h5⟩

/-- Counterexample to C5: fill an empty sequence (`B = 4`) with exactly
`2B = 8` elements via `push_back`, then `push_front(0)`.  The operation
allocates a BID and enqueues a block write (the `size() < 2B` compaction
guard is false at exactly `2B`, and with both resident blocks full there is
no room to compact), and the BID deque is no longer empty — even though the
resulting content is still `0,0,1,…,7` as the spec's stream expectation
says. -/
theorem claim_C5_counterexample :
    (runProg 4 4 (0 : Int) progEightB).bids = []
    ∧ size (runProg 4 4 (0 : Int) progEightB) = 8
    ∧ (push_front 4 (0 : Int) (runProg 4 4 (0 : Int) progEightB)).2 ≠ []
    ∧ Ev.alloc ∈ (push_front 4 (0 : Int) (runProg 4 4 (0 : Int) progEightB)).2
    ∧ Ev.write ∈ (push_front 4 (0 : Int) (runProg 4 4 (0 : Int) progEightB)).2
    ∧ (push_front 4 (0 : Int) (runProg 4 4 (0 : Int) progEightB)).1.bids ≠ []
    ∧ absSeq (push_front 4 (0 : Int) (runProg 4 4 (0 : Int) progEightB)).1
        = [0, 0, 1, 2, 3, 4, 5, 6, 7] := by
  decide

/-- C5 amended: if an empty sequence is filled to exactly `2B - 1` elements
via `push_back` and `push_front` is then called, the operation succeeds
without issuing any I/O — no BID is allocated, no write is enqueued, no
event at all — the BID deque stays empty (the in-memory compaction path is
taken), and the sequence afterwards holds the new element followed by the
`2B - 1` previous ones.  (At exactly `2B` both resident blocks are full,
compaction is impossible, and the general case runs, as the counterexample
shows.) -/
theorem claim_C5_amended {B P : Nat} (hB : 2 ≤ B) (d v : V) (xs : List V)
    (hlen : xs.length = 2 * B - 1) :
    (push_front B v (pushAllBack B xs (initSeq B P d))).2 = []
    ∧ (push_front B v (pushAllBack B xs (initSeq B P d))).1.bids = []
    ∧ absSeq (push_front B v (pushAllBack B xs (initSeq B P d))).1 = v :: xs := by
  have hB1 : 1 ≤ B := by omega
  obtain ⟨hst1, hst2⟩ := pushAllBack_state hB1 d P xs
  obtain ⟨hsh, hfe, hbu, hsz, hbids⟩ := hst2 (by omega) (by omega)
  obtain ⟨hinv, habs⟩ := pushAllBack_inv hB1 xs _ (initSeq_inv d hB1)
  rw [absSeq_initSeq, List.nil_append] at habs
  refine ⟨?_, ?_, ?_⟩
  · unfold push_front
    rw [if_pos hfe, if_neg (by omega), if_neg (by rw [hsh]; simp), if_pos (by omega)]
  · unfold push_front
    rw [if_pos hfe, if_neg (by omega), if_neg (by rw [hsh]; simp), if_pos (by omega)]
    dsimp only
    exact hbids
  · have h2 := (push_front_step hB1 hinv v).2
    rw [habs] at h2
    exact h2

/-- Witness for the amended C5 at `B = 4` with the seven elements `1..7`. -/
theorem claim_C5_amended_witness :
    (push_front 4 (9 : Int) (pushAllBack 4 [1, 2, 3, 4, 5, 6, 7] (initSeq 4 4 (0 : Int)))).2 = []
    ∧ (push_front 4 (9 : Int)
        (pushAllBack 4 [1, 2, 3, 4, 5, 6, 7] (initSeq 4 4 (0 : Int)))).1.bids = []
    ∧ absSeq (push_front 4 (9 : Int)
        (pushAllBack 4 [1, 2, 3, 4, 5, 6, 7] (initSeq 4 4 (0 : Int)))).1
        = 9 :: [1, 2, 3, 4, 5, 6, 7] :=
  claim_C5_amended (by decide) 0 9 [1, 2, 3, 4, 5, 6, 7] (by decide)

/-- Counterexample to C6: at `B = 2`, `blocks2prefetch = 4`, after nine
`push_back`s the BID deque holds three BIDs and a `pop_back` in the general
case issues one hint; in the mirrored state (nine `push_front`s) a
`pop_front` in the general case issues two hints — not the same number. -/
theorem claim_C6_counterexample :
    (runProg 2 4 (0 : Int) progNineB).bids.length = 3
    ∧ (runProg 2 4 (0 : Int) progNineF).bids.length = 3
    ∧ (runProg 2 4 (0 : Int) progNineB).m_blocks2prefetch = 4
    ∧ (runProg 2 4 (0 : Int) progNineF).m_blocks2prefetch = 4
    ∧ (pop_back 2 (runProg 2 4 (0 : Int) progNineB)).2.count Ev.hint = 1
    ∧ (pop_front 2 (runProg 2 4 (0 : Int) progNineF)).2.count Ev.hint = 2
    ∧ ¬((pop_back 2 (runProg 2 4 (0 : Int) progNineB)).2.count Ev.hint
        = (pop_front 2 (runProg 2 4 (0 : Int) progNineF)).2.count Ev.hint) := by
  decide

/-- C6 amended: in the general case (`m_back_element` at the block start,
BID deque non-empty, more than `B` elements remaining) `pop_back` submits a
read of the back BID, releases it and pops it from the BID deque like the
mirror of `pop_front`, but its hint loop starts at `i = 1` instead of
`i = 0`, so it issues `min(blocks2prefetch, |bids| - 1) - 1` prefetch hints
— one fewer than the `min(blocks2prefetch, |bids| - 1)` hints `pop_front`
issues in its general case. -/
theorem claim_C6_amended {B : Nat} (s sF : Seq V)
    (h1 : s.bu = 1) (h2 : s.shared = false) (h3 : B < s.m_size - 1)
    (h4 : sF.fe = B - 1) (h5 : sF.shared = false) (h6 : B < sF.m_size - 1) :
    (pop_back B s).2
      = Ev.readB :: List.replicate (min s.m_blocks2prefetch (s.bids.length - 1) - 1) Ev.hint
        ++ [Ev.delB]
    ∧ (pop_back B s).1.bids = s.bids.dropLast
    ∧ (pop_back B s).2.count Ev.hint = min s.m_blocks2prefetch (s.bids.length - 1) - 1
    ∧ (pop_front B sF).2.count Ev.hint = min sF.m_blocks2prefetch (sF.bids.length - 1) := by
  have hpb : (pop_back B s).2
      = Ev.readB :: List.replicate (min s.m_blocks2prefetch (s.bids.length - 1) - 1) Ev.hint
        ++ [Ev.delB] := by
    unfold pop_back
    rw [if_pos h1, if_neg (by rw [h2]; simp), if_neg (by omega)]
  have hpf : (pop_front B sF).2
      = Ev.readB :: List.replicate (min sF.m_blocks2prefetch (sF.bids.length - 1)) Ev.hint
        ++ [Ev.delB] := by
    unfold pop_front
    rw [if_pos h4, if_neg (by rw [h5]; simp), if_neg (by omega)]
  refine ⟨hpb, ?_, ?_, ?_⟩
  · unfold pop_back
    rw [if_pos h1, if_neg (by rw [h2]; simp), if_neg (by omega)]
  · rw [hpb]
    simp [List.count_cons, List.count_append, List.count_replicate]
  · rw [hpf]
    simp [List.count_cons, List.count_append, List.count_replicate]

/-- Witness for the amended C6 at the two concrete states of the
counterexample. -/
theorem claim_C6_amended_witness :
    (pop_back 2 (runProg 2 4 (0 : Int) progNineB)).2
      = Ev.readB :: List.replicate
          (min (runProg 2 4 (0 : Int) progNineB).m_blocks2prefetch
            ((runProg 2 4 (0 : Int) progNineB).bids.length - 1) - 1) Ev.hint
        ++ [Ev.delB]
    ∧ (pop_back 2 (runProg 2 4 (0 : Int) progNineB)).1.bids
        = (runProg 2 4 (0 : Int) progNineB).bids.dropLast
    ∧ (pop_back 2 (runProg 2 4 (0 : Int) progNineB)).2.count Ev.hint
        = min (runProg 2 4 (0 : Int) progNineB).m_blocks2prefetch
            ((runProg 2 4 (0 : Int) progNineB).bids.length - 1) - 1
    ∧ (pop_front 2 (runProg 2 4 (0 : Int) progNineF)).2.count Ev.hint
        = min (runProg 2 4 (0 : Int) progNineF).m_blocks2prefetch
            ((runProg 2 4 (0 : Int) progNineF).bids.length - 1) :=
  claim_C6_amended (runProg 2 4 (0 : Int) progNineB) (runProg 2 4 (0 : Int) progNineF)
    (by decide) (by decide) (by decide) (by decide) (by decide) (by decide)

theorem reverse_take_succ {α : Type _} (l : List α) (n : Nat) (h : n < l.length) :
    (l.take (n + 1)).reverse = l[n] :: (l.take n).reverse := by
  rw [List.take_succ, List.getElem?_eq_getElem h]
  simp

theorem take_append_of_le {α : Type _} (l l2 : List α) (n : Nat) (h : n ≤ l.length) :
    (l ++ l2).take n = l.take n := by
  rw [List.take_append_eq_append_take, (by omega : n - l.length = 0), List.take_zero,
    List.append_nil]

theorem streamAdv_size {B : Nat} (s : Seq V) (st : SeqStream V) :
    (streamAdv B s st).m_size = st.m_size - 1 := by
  unfold streamAdv
  split_ifs <;> (dsimp only) <;> omega

theorem streamAdv_inv {B : Nat} (hB : 1 ≤ B) {s : Seq V}
    (hbl : s.back_block.length = B) {st : SeqStream V}
    (hinv : StInv B s st) (hz : st.m_size ≠ 0) :
    StInv B s (streamAdv B s st)
    ∧ StRem s (streamAdv B s st)
      = (st.cur_block.drop (st.cur_idx + 1) ++ st.next_bids.flatten
          ++ s.back_block).take (st.m_size - 1) := by
  obtain ⟨hcl, hnl, hidx, hph⟩ := hinv
  by_cases hbe : st.cur_idx = B - 1
  · have hde : st.cur_block.drop (st.cur_idx + 1) = [] :=
      List.drop_of_length_le (by rw [hcl]; omega)
    rw [hde, List.nil_append]
    by_cases hz1 : st.m_size - 1 = 0
    · constructor
      · unfold streamAdv
        rw [if_pos hbe, if_pos hz1]
        unfold StInv
        dsimp only
        exact ⟨hcl, hnl, hidx, Or.inl rfl⟩
      · unfold streamAdv StRem
        rw [if_pos hbe, if_pos hz1]
        dsimp only
        rw [hz1]
        rfl
    · rcases hph with h0 | hback | hmid
      · exact absurd h0 hz
      · exfalso
        obtain ⟨_, _, hmb, hbub⟩ := hback
        omega
      · obtain ⟨hm, hbu1, hbuB⟩ := hmid
        by_cases hz2 : st.m_size - 1 ≤ B
        · have hK : st.next_bids.length = 0 := by
            by_contra hne
            have h1 : 1 ≤ st.next_bids.length := Nat.pos_of_ne_zero hne
            have h2 : B ≤ B * st.next_bids.length := Nat.le_mul_of_pos_right B h1
            omega
          rw [hK, Nat.mul_zero] at hm
          have hnil : st.next_bids = [] := List.eq_nil_of_length_eq_zero hK
          constructor
          · unfold streamAdv
            rw [if_pos hbe, if_neg hz1, if_pos hz2]
            unfold StInv
            dsimp only
            exact ⟨hbl, hnl, by omega, Or.inr (Or.inl ⟨hnil, rfl, by omega, hbuB⟩)⟩
          · unfold streamAdv StRem
            rw [if_pos hbe, if_neg hz1, if_pos hz2]
            dsimp only
            rw [hnil]
            simp only [List.flatten_nil, List.nil_append, List.append_nil, List.drop_zero]
            rw [take_append_of_le s.back_block s.back_block (st.m_size - 1)
              (by rw [hbl]; omega)]
        · have hK : 1 ≤ st.next_bids.length := by
            by_contra hne
            have h0 : st.next_bids.length = 0 := by omega
            rw [h0, Nat.mul_zero] at hm
            omega
          obtain ⟨a, t, hat⟩ : ∃ a t, st.next_bids = a :: t := by
            cases hcc : st.next_bids with
            | nil => rw [hcc] at hK; simp at hK
            | cons a t => exact ⟨a, t, rfl⟩
          rw [hat, List.length_cons, Nat.mul_add, Nat.mul_one] at hm
          constructor
          · unfold streamAdv
            rw [if_pos hbe, if_neg hz1, if_neg hz2]
            unfold StInv
            dsimp only
            rw [hat]
            dsimp only [List.headD_cons, List.tail_cons]
            refine ⟨hnl a (by rw [hat]; exact List.mem_cons_self a t),
              fun b hb => hnl b (by rw [hat]; exact List.mem_cons_of_mem a hb),
              by omega, Or.inr (Or.inr ⟨by omega, hbu1, hbuB⟩)⟩
          · unfold streamAdv StRem
            rw [if_pos hbe, if_neg hz1, if_neg hz2]
            dsimp only
            rw [hat]
            dsimp only [List.headD_cons, List.tail_cons]
            simp [List.append_assoc]
  · constructor
    · unfold streamAdv
      rw [if_neg hbe]
      unfold StInv
      dsimp only
      refine ⟨hcl, hnl, by omega, ?_⟩
      rcases hph with h0 | hback | hmid
      · exact absurd h0 hz
      · obtain ⟨hnil, hcur, hmb, hbub⟩ := hback
        exact Or.inr (Or.inl ⟨hnil, hcur, by omega, hbub⟩)
      · obtain ⟨hm, hbu1, hbuB⟩ := hmid
        exact Or.inr (Or.inr ⟨by omega, hbu1, hbuB⟩)
    · unfold streamAdv StRem
      rw [if_neg hbe]

theorem streamOut_eq_rem {B : Nat} (hB : 1 ≤ B) (d : V) (s : Seq V)
    (hbl : s.back_block.length = B) :
    ∀ (n : Nat) (st : SeqStream V), StInv B s st → st.m_size ≤ n →
      streamOut B d s n st = StRem s st := by
  intro n
  induction n with
  | zero =>
    intro st hinv hle
    unfold streamOut StRem
    rw [(by omega : st.m_size = 0)]
    rfl
  | succ n ih =>
    intro st hinv hle
    by_cases hz : st.m_size = 0
    · unfold streamOut StRem
      rw [if_pos hz, hz]
      rfl
    · obtain ⟨hcl, hnl, hidx, hph⟩ := hinv
      have hlt : st.cur_idx < st.cur_block.length := by rw [hcl]; exact hidx
      have hget : st.cur_block.getD st.cur_idx d = st.cur_block.get ⟨st.cur_idx, hlt⟩ := by
        rw [List.getD_eq_getElem?_getD, List.getElem?_eq_getElem hlt]
        rfl
      have hrem : StRem s st
          = st.cur_block.get ⟨st.cur_idx, hlt⟩
            :: ((st.cur_block.drop (st.cur_idx + 1) ++ st.next_bids.flatten
                ++ s.back_block).take (st.m_size - 1)) := by
        unfold StRem
        conv_lhs => rw [List.drop_eq_getElem_cons hlt]
        rw [List.cons_append, List.cons_append,
          (by omega : st.m_size = (st.m_size - 1) + 1), List.take_succ_cons]
        rfl
      obtain ⟨hai, har⟩ := streamAdv_inv hB hbl ⟨hcl, hnl, hidx, hph⟩ hz
      unfold streamOut
      rw [if_neg hz, hget, hrem,
        ih _ hai (by rw [streamAdv_size]; omega), har]

theorem streamInit_inv {B : Nat} {s : Seq V} (h : SeqInv B s) :
    StInv B s (streamInit s) := by
  have hfeB := fe_lt_of_inv h
  obtain ⟨flen, blen, bidlen, hsh, hsp⟩ := h
  unfold StInv streamInit
  dsimp only
  refine ⟨flen, bidlen, hfeB, ?_⟩
  by_cases hshb : s.shared = true
  · obtain ⟨hfb, hbids, hfe2, hbuB, _, hsize⟩ := hsh hshb
    exact Or.inr (Or.inl ⟨hbids, hfb, by omega, hbuB⟩)
  · obtain ⟨_, hbu1, hbuB, hsize⟩ := hsp (by simpa using hshb)
    exact Or.inr (Or.inr ⟨hsize, hbu1, hbuB⟩)

theorem streamRem_init {B : Nat} {s : Seq V} (h : SeqInv B s) :
    StRem s (streamInit s) = absSeq s := by
  have hfeB := fe_lt_of_inv h
  obtain ⟨flen, blen, bidlen, hsh, hsp⟩ := h
  unfold StRem streamInit absSeq
  dsimp only
  by_cases hshb : s.shared = true
  · obtain ⟨hfb, hbids, hfe2, hbuB, _, hsize⟩ := hsh hshb
    rw [if_pos hshb, hbids]
    simp only [List.flatten_nil, List.append_nil]
    rw [take_append_of_le _ _ _ (by rw [List.length_drop, flen]; omega),
      List.take_drop, (by omega : s.fe + s.m_size = s.bu)]
  · have hshf : s.shared = false := by simpa using hshb
    obtain ⟨_, hbu1, hbuB, hsize⟩ := hsp hshf
    rw [if_neg hshb]
    have hAF : (s.front_block.drop s.fe ++ s.bids.flatten).length
        = (B - s.fe) + B * s.bids.length := by
      rw [List.length_append, List.length_drop, flen, flatten_length_uniform B s.bids bidlen]
    rw [(by rw [hAF]; omega
        : s.m_size = (s.front_block.drop s.fe ++ s.bids.flatten).length + s.bu),
      List.take_append]

theorem revAdv_size {B : Nat} (s : Seq V) (st : RevStream V) :
    (revAdv B s st).m_size = st.m_size - 1 := by
  unfold revAdv
  split_ifs <;> (dsimp only) <;> omega

theorem revAdv_inv {B : Nat} (hB : 1 ≤ B) {s : Seq V}
    (hfl : s.front_block.length = B) {st : RevStream V}
    (hinv : RevInv B s st) (hz : st.m_size ≠ 0) :
    RevInv B s (revAdv B s st)
    ∧ RevRem s (revAdv B s st)
      = ((st.cur_block.take st.cur_idx).reverse
          ++ (st.next_bids.map List.reverse).flatten
          ++ s.front_block.reverse).take (st.m_size - 1) := by
  obtain ⟨hcl, hnl, hidx, hph⟩ := hinv
  by_cases hbe : st.cur_idx = 0
  · rw [hbe, List.take_zero, List.reverse_nil, List.nil_append]
    by_cases hz1 : st.m_size - 1 = 0
    · constructor
      · unfold revAdv
        rw [if_pos hbe, if_pos hz1]
        unfold RevInv
        dsimp only
        exact ⟨hcl, hnl, hidx, Or.inl rfl⟩
      · unfold revAdv RevRem
        rw [if_pos hbe, if_pos hz1]
        dsimp only
        rw [hz1]
        rfl
    · rcases hph with h0 | hfront | hmid
      · exact absurd h0 hz
      · exfalso
        obtain ⟨_, _, hmf, hfe2⟩ := hfront
        omega
      · obtain ⟨hm, hfeB⟩ := hmid
        rw [hbe] at hm
        by_cases hz2 : st.m_size - 1 ≤ B
        · have hK : st.next_bids.length = 0 := by
            by_contra hne
            have h1 : 1 ≤ st.next_bids.length := Nat.pos_of_ne_zero hne
            have h2 : B ≤ B * st.next_bids.length := Nat.le_mul_of_pos_right B h1
            omega
          rw [hK, Nat.mul_zero] at hm
          have hnil : st.next_bids = [] := List.eq_nil_of_length_eq_zero hK
          constructor
          · unfold revAdv
            rw [if_pos hbe, if_neg hz1, if_pos hz2]
            unfold RevInv
            dsimp only
            exact ⟨hfl, hnl, by omega,
              Or.inr (Or.inl ⟨hnil, rfl, by omega, by omega⟩)⟩
          · unfold revAdv RevRem
            rw [if_pos hbe, if_neg hz1, if_pos hz2]
            dsimp only
            rw [hnil, (by omega : B - 1 + 1 = B),
              List.take_of_length_le (le_of_eq hfl)]
            simp only [List.map_nil, List.flatten_nil, List.nil_append, List.append_nil]
            rw [take_append_of_le s.front_block.reverse s.front_block.reverse
              (st.m_size - 1) (by rw [List.length_reverse, hfl]; omega)]
        · have hK : 1 ≤ st.next_bids.length := by
            by_contra hne
            have h0 : st.next_bids.length = 0 := by omega
            rw [h0, Nat.mul_zero] at hm
            omega
          obtain ⟨a, t, hat⟩ : ∃ a t, st.next_bids = a :: t := by
            cases hcc : st.next_bids with
            | nil => rw [hcc] at hK; simp at hK
            | cons a t => exact ⟨a, t, rfl⟩
          rw [hat, List.length_cons, Nat.mul_add, Nat.mul_one] at hm
          have hal : a.length = B := hnl a (by rw [hat]; exact List.mem_cons_self a t)
          constructor
          · unfold revAdv
            rw [if_pos hbe, if_neg hz1, if_neg hz2]
            unfold RevInv
            dsimp only
            rw [hat]
            dsimp only [List.headD_cons, List.tail_cons]
            refine ⟨hal, fun b hb => hnl b (by rw [hat]; exact List.mem_cons_of_mem a hb),
              by omega, Or.inr (Or.inr ⟨by omega, by omega⟩)⟩
          · unfold revAdv RevRem
            rw [if_pos hbe, if_neg hz1, if_neg hz2]
            dsimp only
            rw [hat]
            dsimp only [List.headD_cons, List.tail_cons]
            rw [(by omega : B - 1 + 1 = B), List.take_of_length_le (le_of_eq hal)]
            simp [List.append_assoc]
  · constructor
    · unfold revAdv
      rw [if_neg hbe]
      unfold RevInv
      dsimp only
      refine ⟨hcl, hnl, by omega, ?_⟩
      rcases hph with h0 | hfront | hmid
      · exact absurd h0 hz
      · obtain ⟨hnil, hcur, hmf, hfe2⟩ := hfront
        exact Or.inr (Or.inl ⟨hnil, hcur, by omega, by omega⟩)
      · obtain ⟨hm, hfeB⟩ := hmid
        exact Or.inr (Or.inr ⟨by omega, hfeB⟩)
    · unfold revAdv RevRem
      rw [if_neg hbe]
      dsimp only
      rw [(by omega : st.cur_idx - 1 + 1 = st.cur_idx)]

theorem revOut_eq_rem {B : Nat} (hB : 1 ≤ B) (d : V) (s : Seq V)
    (hfl : s.front_block.length = B) :
    ∀ (n : Nat) (st : RevStream V), RevInv B s st → st.m_size ≤ n →
      revOut B d s n st = RevRem s st := by
  intro n
  induction n with
  | zero =>
    intro st hinv hle
    unfold revOut RevRem
    rw [(by omega : st.m_size = 0)]
    rfl
  | succ n ih =>
    intro st hinv hle
    by_cases hz : st.m_size = 0
    · unfold revOut RevRem
      rw [if_pos hz, hz]
      rfl
    · obtain ⟨hcl, hnl, hidx, hph⟩ := hinv
      have hlt : st.cur_idx < st.cur_block.length := by rw [hcl]; exact hidx
      have hget : st.cur_block.getD st.cur_idx d = st.cur_block.get ⟨st.cur_idx, hlt⟩ := by
        rw [List.getD_eq_getElem?_getD, List.getElem?_eq_getElem hlt]
        rfl
      have hrem : RevRem s st
          = st.cur_block.get ⟨st.cur_idx, hlt⟩
            :: (((st.cur_block.take st.cur_idx).reverse
                ++ (st.next_bids.map List.reverse).flatten
                ++ s.front_block.reverse).take (st.m_size - 1)) := by
        unfold RevRem
        conv_lhs => rw [reverse_take_succ st.cur_block st.cur_idx hlt]
        rw [List.cons_append, List.cons_append,
          (by omega : st.m_size = (st.m_size - 1) + 1), List.take_succ_cons]
        rfl
      obtain ⟨hai, har⟩ := revAdv_inv hB hfl ⟨hcl, hnl, hidx, hph⟩ hz
      unfold revOut
      rw [if_neg hz, hget, hrem,
        ih _ hai (by rw [revAdv_size]; omega), har]

theorem revInit_inv {B : Nat} (hB : 1 ≤ B) {s : Seq V} (h : SeqInv B s) :
    RevInv B s (revInit s) := by
  obtain ⟨flen, blen, bidlen, hsh, hsp⟩ := h
  unfold RevInv revInit
  dsimp only
  refine ⟨blen, fun b hb => bidlen b (List.mem_reverse.1 hb), ?_, ?_⟩
  · by_cases hshb : s.shared = true
    · obtain ⟨_, _, _, hbuB, _, _⟩ := hsh hshb
      omega
    · obtain ⟨_, _, hbuB, _⟩ := hsp (by simpa using hshb)
      omega
  · by_cases hz : s.m_size = 0
    · exact Or.inl hz
    · by_cases hshb : s.shared = true
      · obtain ⟨hfb, hbids, hfe2, hbuB, _, hsize⟩ := hsh hshb
        refine Or.inr (Or.inl ⟨by rw [hbids]; rfl, hfb.symm, by omega, by omega⟩)
      · obtain ⟨hfeB, hbu1, hbuB, hsize⟩ := hsp (by simpa using hshb)
        refine Or.inr (Or.inr ⟨?_, hfeB⟩)
        rw [List.length_reverse]
        omega

theorem revRem_init {B : Nat} (hB : 1 ≤ B) {s : Seq V} (h : SeqInv B s) :
    RevRem s (revInit s) = (absSeq s).reverse := by
  by_cases hz : s.m_size = 0
  · rw [absSeq_eq_nil h hz]
    unfold RevRem revInit
    dsimp only
    rw [hz]
    rfl
  · obtain ⟨flen, blen, bidlen, hsh, hsp⟩ := h
    unfold RevRem revInit absSeq
    dsimp only
    by_cases hshb : s.shared = true
    · obtain ⟨hfb, hbids, hfe2, hbuB, hfeB, hsize⟩ := hsh hshb
      rw [if_pos hshb, hbids, (by omega : s.bu - 1 + 1 = s.bu), ← hfb]
      simp only [List.reverse_nil, List.map_nil, List.flatten_nil, List.append_nil,
        List.nil_append]
      rw [take_append_of_le _ _ _
          (by rw [List.length_reverse, List.length_take, flen]; omega),
        List.reverse_drop, List.length_take, flen,
        (by omega : min s.bu B - s.fe = s.m_size)]
    · have hshf : s.shared = false := by simpa using hshb
      obtain ⟨hfeB, hbu1, hbuB, hsize⟩ := hsp hshf
      rw [if_neg hshb, (by omega : s.bu - 1 + 1 = s.bu), List.reverse_append,
        List.reverse_append, List.reverse_flatten, List.reverse_drop, flen,
        ← List.map_reverse]
      have hlen2 : ((s.back_block.take s.bu).reverse
          ++ (s.bids.reverse.map List.reverse).flatten).length
          = s.bu + B * s.bids.length := by
        rw [List.length_append, List.length_reverse, List.length_take, blen,
          flatten_length_uniform B (s.bids.reverse.map List.reverse)
            (by intro b hb
                obtain ⟨c, hc, hcb⟩ := List.mem_map.1 hb
                rw [← hcb, List.length_reverse]
                exact bidlen c (List.mem_reverse.1 hc)),
          List.length_map, List.length_reverse]
        omega
      rw [(by rw [hlen2]; omega
          : s.m_size = ((s.back_block.take s.bu).reverse
              ++ (s.bids.reverse.map List.reverse).flatten).length + (B - s.fe)),
        List.take_append]
      simp [List.append_assoc]

theorem flatten_drop_blocks {α : Type _} (B : Nat) (L : List (List α))
    (hL : ∀ b ∈ L, b.length = B) (q : Nat) (hq : q ≤ L.length) :
    L.flatten.drop (B * q) = (L.drop q).flatten := by
  have h1 : (L.take q).flatten.length = B * q := by
    rw [flatten_length_uniform B _ (fun b hb => hL b (List.mem_of_mem_take hb)),
      List.length_take, Nat.min_eq_left hq]
  conv_lhs => rw [← List.take_append_drop q L]
  rw [List.flatten_append, List.drop_append_eq_append_drop,
    List.drop_of_length_le (le_of_eq h1), h1, Nat.sub_self, List.drop_zero,
    List.nil_append]

/-- `stream::stream(sequence, offset)` positions the stream `k` elements
past the front: iterating it from there emits the last `m_size - k`
elements of the sequence. -/
theorem streamOff_eq {B : Nat} (hB : 1 ≤ B) (d : V) {s : Seq V} (h : SeqInv B s)
    (k : Nat) (hk : k ≤ s.m_size) :
    streamOut B d s (s.m_size - k) (streamInitOff B s k) = (absSeq s).drop k := by
  by_cases hm0 : s.m_size - k = 0
  · rw [hm0, List.drop_of_length_le (by rw [absSeq_length h]; omega)]
    rfl
  · have hfeB := fe_lt_of_inv h
    obtain ⟨flen, blen, bidlen, hsh, hsp⟩ := h
    unfold streamInitOff
    by_cases hc1 : k + s.fe < B
    · rw [if_pos hc1]
      by_cases hshb : s.shared = true
      · obtain ⟨hfb, hbids, hfe2, hbuB, _, hsize⟩ := hsh hshb
        have hst : StInv B s ⟨s.m_size - k, s.front_block, s.fe + k, s.bids⟩ := by
          unfold StInv
          dsimp only
          exact ⟨flen, bidlen, by omega,
            Or.inr (Or.inl ⟨hbids, hfb, by omega, hbuB⟩)⟩
        rw [streamOut_eq_rem hB d s blen (s.m_size - k) _ hst (Nat.le_refl _)]
        unfold StRem absSeq
        dsimp only
        rw [if_pos hshb, hbids]
        simp only [List.flatten_nil, List.append_nil]
        rw [take_append_of_le _ _ _ (by rw [List.length_drop, flen]; omega),
          List.take_drop, (by omega : s.fe + k + (s.m_size - k) = s.bu),
          List.drop_drop]
      · have hshf : s.shared = false := by simpa using hshb
        obtain ⟨_, hbu1, hbuB, hsize⟩ := hsp hshf
        have hst : StInv B s ⟨s.m_size - k, s.front_block, s.fe + k, s.bids⟩ := by
          unfold StInv
          dsimp only
          exact ⟨flen, bidlen, by omega,
            Or.inr (Or.inr ⟨by omega, hbu1, hbuB⟩)⟩
        rw [streamOut_eq_rem hB d s blen (s.m_size - k) _ hst (Nat.le_refl _)]
        have hA : (s.front_block.drop s.fe).length = B - s.fe := by
          rw [List.length_drop, flen]
        have hAF : (s.front_block.drop s.fe ++ s.bids.flatten).length
            = (B - s.fe) + B * s.bids.length := by
          rw [List.length_append, hA, flatten_length_uniform B s.bids bidlen]
        have hrhs : (absSeq s).drop k
            = (s.front_block.drop (s.fe + k) ++ s.bids.flatten)
              ++ s.back_block.take s.bu := by
          unfold absSeq
          rw [if_neg hshb]
          rw [List.drop_append_eq_append_drop, List.drop_append_eq_append_drop,
            hA, hAF, (by omega : k - (B - s.fe) = 0),
            (by omega : k - ((B - s.fe) + B * s.bids.length) = 0),
            List.drop_zero, List.drop_zero, List.drop_drop]
        rw [hrhs]
        unfold StRem
        dsimp only
        have hXY : (s.front_block.drop (s.fe + k) ++ s.bids.flatten).length
            = (B - (s.fe + k)) + B * s.bids.length := by
          rw [List.length_append, List.length_drop, flen,
            flatten_length_uniform B s.bids bidlen]
        rw [(by rw [hXY]; omega : s.m_size - k
            = (s.front_block.drop (s.fe + k) ++ s.bids.flatten).length + s.bu),
          List.take_append]
    · rw [if_neg hc1]
      have hshf : s.shared = false := by
        cases hb : s.shared with
        | false => rfl
        | true =>
          exfalso
          obtain ⟨hfb, hbids, hfe2, hbuB, _, hsize⟩ := hsh hb
          omega
      obtain ⟨_, hbu1, hbuB, hsize⟩ := hsp hshf
      have hA : (s.front_block.drop s.fe).length = B - s.fe := by
        rw [List.length_drop, flen]
      have hAF : (s.front_block.drop s.fe ++ s.bids.flatten).length
          = (B - s.fe) + B * s.bids.length := by
        rw [List.length_append, hA, flatten_length_uniform B s.bids bidlen]
      by_cases hc2 : s.m_size - k ≤ s.bu
      · rw [if_pos hc2]
        have hidx : (k - (B - s.fe)) % B = s.bu - (s.m_size - k) := by
          have h2 : k - (B - s.fe)
              = (s.bu - (s.m_size - k)) + B * s.bids.length := by omega
          rw [h2, Nat.add_mul_mod_self_left, Nat.mod_eq_of_lt (by omega)]
        have hst : StInv B s
            ⟨s.m_size - k, s.back_block, (k - (B - s.fe)) % B, []⟩ := by
          unfold StInv
          dsimp only
          rw [hidx]
          exact ⟨blen, by simp, by omega,
            Or.inr (Or.inl ⟨rfl, rfl, by omega, hbuB⟩)⟩
        rw [streamOut_eq_rem hB d s blen (s.m_size - k) _ hst (Nat.le_refl _)]
        have hrhs : (absSeq s).drop k
            = (s.back_block.take s.bu).drop (s.bu - (s.m_size - k)) := by
          unfold absSeq
          rw [if_neg (by simp [hshf])]
          rw [List.drop_append_eq_append_drop,
            List.drop_of_length_le (by rw [hAF]; omega), List.nil_append, hAF,
            (by omega : k - ((B - s.fe) + B * s.bids.length)
              = s.bu - (s.m_size - k))]
        rw [hrhs]
        unfold StRem
        dsimp only
        rw [hidx]
        simp only [List.flatten_nil, List.append_nil]
        rw [take_append_of_le _ _ _ (by rw [List.length_drop, blen]; omega),
          List.drop_take,
          (by omega : s.bu - (s.bu - (s.m_size - k)) = s.m_size - k)]
      · rw [if_neg hc2]
        dsimp only
        have hmlt : k - (B - s.fe) < B * s.bids.length := by omega
        have hq : (k - (B - s.fe)) / B < s.bids.length := by
          rw [Nat.div_lt_iff_lt_mul (by omega : 0 < B), Nat.mul_comm]
          exact hmlt
        have hdm : B * ((k - (B - s.fe)) / B) + (k - (B - s.fe)) % B
            = k - (B - s.fe) := Nat.div_add_mod _ B
        have hr : (k - (B - s.fe)) % B < B := Nat.mod_lt _ (by omega)
        obtain ⟨c, hc⟩ : ∃ c, s.bids.drop ((k - (B - s.fe)) / B)
            = c :: s.bids.drop ((k - (B - s.fe)) / B + 1) :=
          ⟨_, List.drop_eq_getElem_cons hq⟩
        have hcmem : c ∈ s.bids := by
          have h1 : c ∈ s.bids.drop ((k - (B - s.fe)) / B) := by
            rw [hc]
            exact List.mem_cons_self c _
          exact List.mem_of_mem_drop h1
        have hclen : c.length = B := bidlen c hcmem
        have hT : s.bids.length
            = ((k - (B - s.fe)) / B + 1)
              + (s.bids.drop ((k - (B - s.fe)) / B + 1)).length := by
          rw [List.length_drop]
          omega
        have hmul : B * s.bids.length
            = B * ((k - (B - s.fe)) / B) + B
              + B * (s.bids.drop ((k - (B - s.fe)) / B + 1)).length := by
          rw [hT]
          simp only [Nat.mul_add, Nat.mul_one]
        have hst : StInv B s
            ⟨s.m_size - k, c, (k - (B - s.fe)) % B,
              s.bids.drop ((k - (B - s.fe)) / B + 1)⟩ := by
          unfold StInv
          dsimp only
          exact ⟨hclen, fun b hb => bidlen b (List.mem_of_mem_drop hb), hr,
            Or.inr (Or.inr ⟨by omega, hbu1, hbuB⟩)⟩
        rw [hc, List.headD_cons,
          streamOut_eq_rem hB d s blen (s.m_size - k) _ hst (Nat.le_refl _)]
        have hFd : s.bids.flatten.drop (k - (B - s.fe))
            = c.drop ((k - (B - s.fe)) % B)
              ++ (s.bids.drop ((k - (B - s.fe)) / B + 1)).flatten := by
          conv_lhs => rw [(by omega : k - (B - s.fe)
            = B * ((k - (B - s.fe)) / B) + (k - (B - s.fe)) % B)]
          rw [← List.drop_drop, flatten_drop_blocks B s.bids bidlen _ (le_of_lt hq),
            hc, List.flatten_cons, List.drop_append_eq_append_drop, hclen,
            (by omega : (k - (B - s.fe)) % B - B = 0), List.drop_zero]
        have hrhs : (absSeq s).drop k
            = (c.drop ((k - (B - s.fe)) % B)
                ++ (s.bids.drop ((k - (B - s.fe)) / B + 1)).flatten)
              ++ s.back_block.take s.bu := by
          unfold absSeq
          rw [if_neg (by simp [hshf])]
          rw [List.drop_append_eq_append_drop, List.drop_append_eq_append_drop,
            List.drop_of_length_le (by rw [hA]; omega), List.nil_append, hA, hAF,
            (by omega : k - ((B - s.fe) + B * s.bids.length) = 0),
            List.drop_zero, hFd]
        rw [hrhs]
        unfold StRem
        dsimp only
        have hXY : (c.drop ((k - (B - s.fe)) % B)
            ++ (s.bids.drop ((k - (B - s.fe)) / B + 1)).flatten).length
            = (B - (k - (B - s.fe)) % B)
              + B * (s.bids.drop ((k - (B - s.fe)) / B + 1)).length := by
          rw [List.length_append, List.length_drop, hclen,
            flatten_length_uniform B _ (fun b hb => bidlen b (List.mem_of_mem_drop hb))]
        rw [(by rw [hXY]; omega : s.m_size - k
            = (c.drop ((k - (B - s.fe)) % B)
              ++ (s.bids.drop ((k - (B - s.fe)) / B + 1)).flatten).length + s.bu),
          List.take_append]

/-- C3: iterating the forward stream of a sequence emits exactly its
elements front-to-back in order, and iterating the reverse stream emits
exactly its elements back-to-front.  The stream operations are pure
functions of the sequence state (the source takes the sequence by const
reference), so the sequence's observable content, size and element order
are unchanged by the iteration. -/
theorem claim_C3_stream_laws {B P : Nat} (hB : 1 ≤ B) (d : V) (prog : List (Op V)) :
    streamOut B d (runProg B P d prog) (runProg B P d prog).m_size
        (streamInit (runProg B P d prog)) = absSeq (runProg B P d prog)
    ∧ revOut B d (runProg B P d prog) (runProg B P d prog).m_size
        (revInit (runProg B P d prog)) = (absSeq (runProg B P d prog)).reverse := by
  obtain ⟨hinv, habs⟩ := runProg_inv (B := B) (P := P) hB d prog
  constructor
  · rw [streamOut_eq_rem hB d _ hinv.blen ((runProg B P d prog).m_size) _
        (streamInit_inv hinv) (Nat.le_refl _),
      streamRem_init hinv]
  · rw [revOut_eq_rem hB d _ hinv.flen ((runProg B P d prog).m_size) _
        (revInit_inv hB hinv) (Nat.le_refl _),
      revRem_init hB hinv]

/-- Witness for C3 at `B = 2`, the mixed 17-operation program. -/
theorem claim_C3_witness :
    streamOut 2 0 (runProg 2 4 (0 : Int) progW) (runProg 2 4 (0 : Int) progW).m_size
        (streamInit (runProg 2 4 (0 : Int) progW)) = absSeq (runProg 2 4 (0 : Int) progW)
    ∧ revOut 2 0 (runProg 2 4 (0 : Int) progW) (runProg 2 4 (0 : Int) progW).m_size
        (revInit (runProg 2 4 (0 : Int) progW))
        = (absSeq (runProg 2 4 (0 : Int) progW)).reverse :=
  claim_C3_stream_laws (by decide) 0 progW

/-- C4: for every reachable sequence and every offset `k ≤ size`, the
stream constructed at offset `k` emits exactly the last `size - k`
elements of the sequence in front-to-back order (the abstraction has
length `size`, so its `k`-drop is exactly those elements); in particular
after one advance the stream holds `size - k - 1` elements, so a stream
constructed at offset `size - 1` is empty after a single advance. -/
theorem claim_C4_stream_offset {B P : Nat} (hB : 1 ≤ B) (d : V)
    (prog : List (Op V)) (k : Nat) (hk : k ≤ (runProg B P d prog).m_size) :
    streamOut B d (runProg B P d prog) ((runProg B P d prog).m_size - k)
        (streamInitOff B (runProg B P d prog) k)
      = (absSeq (runProg B P d prog)).drop k
    ∧ (absSeq (runProg B P d prog)).length = (runProg B P d prog).m_size
    ∧ (streamAdv B (runProg B P d prog)
          (streamInitOff B (runProg B P d prog) k)).m_size
        = (runProg B P d prog).m_size - k - 1 := by
  have hinv := (runProg_inv (B := B) (P := P) hB d prog).1
  refine ⟨streamOff_eq hB d hinv k hk, absSeq_length hinv, ?_⟩
  rw [streamAdv_size]
  unfold streamInitOff
  split_ifs <;> (dsimp only) <;> omega

/-- Witness for C4 at `B = 2`, the mixed 17-operation program (final size
5), at offset `size - 1 = 4`: the emission is the one-element suffix and
one advance empties the stream. -/
theorem claim_C4_witness :
    4 ≤ (runProg 2 4 (0 : Int) progW).m_size
    ∧ (streamOut 2 0 (runProg 2 4 (0 : Int) progW)
          ((runProg 2 4 (0 : Int) progW).m_size - 4)
          (streamInitOff 2 (runProg 2 4 (0 : Int) progW) 4)
        = (absSeq (runProg 2 4 (0 : Int) progW)).drop 4
      ∧ (absSeq (runProg 2 4 (0 : Int) progW)).length
          = (runProg 2 4 (0 : Int) progW).m_size
      ∧ (streamAdv 2 (runProg 2 4 (0 : Int) progW)
            (streamInitOff 2 (runProg 2 4 (0 : Int) progW) 4)).m_size
          = (runProg 2 4 (0 : Int) progW).m_size - 4 - 1) :=
  ⟨by decide, claim_C4_stream_offset (by decide) 0 progW 4 (by decide)⟩

end StxxlSeq
